import Mathlib

/-!
Verification of the decipi repository's specification against a shallow
embedding of its code.

The embedding covers:
* `Agg`   — the evaluation aggregator (`src/net/src/common.rs`);
* `Ts`    — the timestamp validity window (`src/net/src/message.rs`);
* `Eval`  — the sandboxed evaluator pipeline (`src/evaluator/src/lib.rs`);
* `FStore`— the chunked file store (`src/net/src/file.rs`);
* `Wire`  — the wire codec for the `Message` type (`src/net/src/message.rs`).

Cryptographic primitives (blake3, keyed blake3, ed25519 key validation) are
left abstract: the definitions that use them take the primitive as an
explicit function argument, and the theorems quantify over it.
-/

namespace Agg

/-- Evaluation identifier: `EvaluationId { submission_id, evaluator }`.
The submission id and the evaluator public key are abstracted to `Nat`. -/
structure EvaluationId where
  submission : Nat
  evaluator : Nat
deriving DecidableEq

/-- Scores (`SubScore`, a `NotNan<f64>` in the source) are modelled as
exact rationals; `NotNan` values are totally ordered and NaN-free, which
`ℚ` reflects. -/
abbrev SubScore := ℚ

/-- `DetailHash = Mac` (a 32-byte blake3 output) is abstracted to `Nat`. -/
abbrev DetailHash := Nat

/-- `QEvaluation { evaluation_id, score, detailhs_hash }`. -/
structure QEvaluation where
  evaluation_id : EvaluationId
  score : SubScore
  detailhs_hash : DetailHash
deriving DecidableEq

/-- `QEvaluationProof { evaluation_id, detailhs }`. -/
structure QEvaluationProof where
  evaluation_id : EvaluationId
  detailhs : DetailHash
deriving DecidableEq

/-- `QEvaluationProof::hash`: keyed blake3 of the evaluation id's public hash
data under the key `detailhs`.  The keyed hash primitive is the argument
`kh : key → id → digest`. -/
def QEvaluationProof.hash (kh : DetailHash → EvaluationId → DetailHash)
    (ep : QEvaluationProof) : DetailHash :=
  kh ep.detailhs ep.evaluation_id

/-- Per-evaluator state (`EvaluationState` in `common.rs`). -/
inductive EvaluationState
  | none
  | provisional (s : SubScore) (h : DetailHash)
  | final (s : SubScore) (h : DetailHash)
  | failed
deriving DecidableEq

/-- `SingleEvaluationInfo { evaluator, state }`. -/
structure SingleEvaluationInfo where
  evaluator : Nat
  state : EvaluationState
deriving DecidableEq

/-- `SingleEvaluationInfo::new`. -/
def SingleEvaluationInfo.new (psk : Nat) : SingleEvaluationInfo :=
  { evaluator := psk, state := .none }

/-- `SingleEvaluationInfo::add_evaluation`: only acts when the state is
`None`, moving it to `Provisional(e.score, e.detailhs_hash)`. -/
def SingleEvaluationInfo.add_evaluation (x : SingleEvaluationInfo)
    (e : QEvaluation) : SingleEvaluationInfo :=
  match x.state with
  | .none => { x with state := .provisional e.score e.detailhs_hash }
  | _ => x

/-- `SingleEvaluationInfo::add_evaluation_proof`: only acts on
`Provisional(score, hh)`; moves to `Final(score, ep.detailhs)` when
`ep.hash() == hh`, otherwise to `Failed`. -/
def SingleEvaluationInfo.add_evaluation_proof
    (kh : DetailHash → EvaluationId → DetailHash)
    (x : SingleEvaluationInfo) (ep : QEvaluationProof) : SingleEvaluationInfo :=
  match x.state with
  | .provisional s hh =>
    if ep.hash kh = hh then { x with state := .final s ep.detailhs }
    else { x with state := .failed }
  | _ => x

/-- `EvaluationResultScore`. -/
inductive EvaluationResultScore
  | none
  | provisional (s : SubScore)
  | final (s : SubScore)
  | failed
deriving DecidableEq

/-- `EvaluationInfo` is a vector of per-evaluator infos. -/
abbrev EvaluationInfo := List SingleEvaluationInfo

/-- `EvaluationInfo::new`. -/
def EvaluationInfo.new (evaluators : List Nat) : EvaluationInfo :=
  evaluators.map SingleEvaluationInfo.new

/-- `EvaluationInfo::provisional_score`: the first score of a `Provisional`
or `Final` evaluator. -/
def EvaluationInfo.provisional_score (info : EvaluationInfo) : Option SubScore :=
  info.findSome? fun x =>
    match x.state with
    | .provisional s _ => some s
    | .final s _ => some s
    | _ => Option.none

/-- One step of the majority scan in `EvaluationInfo::final_score`,
transcribed from the loop body: on a match the counter is incremented; on a
mismatch with counter zero the candidate is replaced (the counter is
left unchanged at zero); otherwise the counter is decremented. -/
def bmStep {α : Type} [DecidableEq α] (mc : α × Nat) (s : α) : α × Nat :=
  if s = mc.1 then (mc.1, mc.2 + 1)
  else if mc.2 = 0 then (s, mc.2)
  else (mc.1, mc.2 - 1)

/-- The `Final`-state projection used by `final_score`: `Final(s, h)` maps
to `Some((s, h))`, every other state to `None`. -/
def finalPair (x : SingleEvaluationInfo) : Option (SubScore × DetailHash) :=
  match x.state with
  | .final s h => some (s, h)
  | _ => Option.none

/-- The candidate-and-counter pair left by the scan loop of `final_score`. -/
def finalCandidate (info : List SingleEvaluationInfo) :
    Option (SubScore × DetailHash) × Nat :=
  (info.map finalPair).foldl bmStep (Option.none, 0)

/-- `EvaluationInfo::final_score`: Boyer–Moore-style scan over the
`Option<(score, hash)>` projections of all evaluators (starting from the
candidate `None`), then a recount: the candidate must occur in strictly more
than half of all evaluators. -/
def EvaluationInfo.final_score (info : EvaluationInfo) : Option SubScore :=
  if (info.map finalPair).countP
      (fun s => decide (s = (finalCandidate info).1)) * 2 > info.length
  then (finalCandidate info).1.map (·.1)
  else Option.none

/-- `EvaluationInfo::is_done`: every evaluator is `Final` or `Failed`. -/
def EvaluationInfo.is_done (info : EvaluationInfo) : Bool :=
  info.all fun x =>
    match x.state with
    | .final _ _ => true
    | .failed => true
    | _ => false

/-- `EvaluationInfo::score`. -/
def EvaluationInfo.score (info : EvaluationInfo) : EvaluationResultScore :=
  match info.final_score with
  | some s => .final s
  | Option.none =>
    if info.is_done then .failed
    else
      match info.provisional_score with
      | some s => .provisional s
      | Option.none => .none

/-- Mutate the first list element satisfying `p` (the `iter_mut().find`
pattern used by `EvaluationInfo::add_evaluation{_proof}`). -/
def updateFirst {α : Type} (p : α → Bool) (f : α → α) : List α → List α
  | [] => []
  | x :: xs => if p x then f x :: xs else x :: updateFirst p f xs

/-- `EvaluationInfo::add_evaluation`. -/
def EvaluationInfo.add_evaluation (info : EvaluationInfo) (e : QEvaluation) :
    EvaluationInfo :=
  updateFirst (fun x => x.evaluator == e.evaluation_id.evaluator)
    (fun x => x.add_evaluation e) info

/-- `EvaluationInfo::add_evaluation_proof`. -/
def EvaluationInfo.add_evaluation_proof
    (kh : DetailHash → EvaluationId → DetailHash)
    (info : EvaluationInfo) (ep : QEvaluationProof) : EvaluationInfo :=
  updateFirst (fun x => x.evaluator == ep.evaluation_id.evaluator)
    (fun x => x.add_evaluation_proof kh ep) info

/-- Number of evaluators finalized with a given score and hash key. -/
def countFinal (info : EvaluationInfo) (s : SubScore) (h : DetailHash) : Nat :=
  info.countP fun x => decide (x.state = .final s h)

/-- Number of evaluators finalized with a given hash key (any score). -/
def countFinalKey (info : EvaluationInfo) (h : DetailHash) : Nat :=
  info.countP fun x =>
    match x.state with
    | .final _ hh => decide (hh = h)
    | _ => false


/-- Operation on a per-evaluator aggregator state: an `Evaluation` message or
an `EvaluationProof` message. -/
inductive AggOp
  | ev (e : QEvaluation)
  | proof (ep : QEvaluationProof)

/-- Apply one aggregator operation to a per-evaluator info. -/
def applyOp (kh : DetailHash → EvaluationId → DetailHash)
    (x : SingleEvaluationInfo) : AggOp → SingleEvaluationInfo
  | .ev e => x.add_evaluation e
  | .proof ep => x.add_evaluation_proof kh ep

/-- Apply a sequence of aggregator operations to a per-evaluator info. -/
def runOps (kh : DetailHash → EvaluationId → DetailHash)
    (x : SingleEvaluationInfo) : List AggOp → SingleEvaluationInfo
  | [] => x
  | op :: ops => runOps kh (applyOp kh x op) ops

/-- The progress (no-revert) order on evaluator states claimed by the spec:
`None` may become anything; `Provisional` keeps its score and hash until it
becomes `Final` (same score) or `Failed`; `Final` and `Failed` are
terminal. -/
def stateProgress : EvaluationState → EvaluationState → Prop
  | .none, _ => True
  | .provisional s h, .provisional t k => s = t ∧ h = k
  | .provisional s _, .final t _ => s = t
  | .provisional _ _, .failed => True
  | .final s h, .final t k => s = t ∧ h = k
  | .failed, .failed => True
  | _, _ => False

/-- Concrete keyed-hash instance used by the concrete scenarios below. -/
def kh0 : DetailHash → EvaluationId → DetailHash :=
  fun key id => 100 * key + id.evaluator

/-- Concrete aggregator run: evaluators `1` and `2` both finalize with the
reveal key `7` but report different scores (`0` and `1`); evaluator `3`
commits to a wrong hash and fails its reveal.  All three evaluators have
received both their `Evaluation` and their `EvaluationProof`. -/
def info0 : EvaluationInfo :=
  ((((((EvaluationInfo.new [1, 2, 3]).add_evaluation
      ⟨⟨0, 1⟩, 0, 701⟩).add_evaluation
      ⟨⟨0, 2⟩, 1, 702⟩).add_evaluation
      ⟨⟨0, 3⟩, 0, 99⟩).add_evaluation_proof kh0
      ⟨⟨0, 1⟩, 7⟩).add_evaluation_proof kh0
      ⟨⟨0, 2⟩, 7⟩).add_evaluation_proof kh0
      ⟨⟨0, 3⟩, 7⟩

end Agg

namespace Ts

/-- `is_timestamp_valid` from `src/net/src/message.rs`, with `SystemTime`
instants modelled as nanoseconds since the epoch: a timestamp in the future
is accepted when its distance from `now` is strictly below 20 s, one in the
past (or equal) when its distance is strictly below 40 s. -/
def is_timestamp_valid (timestamp now : Nat) : Bool :=
  if timestamp > now then timestamp - now < 20 * 1000000000
  else now - timestamp < 40 * 1000000000

end Ts


namespace Eval

/-- The wasmtime traps distinguished by `run_sub`; every other trap kind is
collapsed into `otherTrap` with an opaque code. -/
inductive Trap
  | outOfFuel
  | memoryOutOfBounds
  | tableOutOfBounds
  | otherTrap (code : Nat)
deriving DecidableEq

/-- Root cause of a failed wasm call: either a `Trap`, or a host-side error
carrying its textual message (the code matches on the text). -/
inductive RunErr
  | trap (t : Trap)
  | host (msg : String)
deriving DecidableEq

/-- The wasmtime grow-failure message matched (stringly) by `run_sub`. -/
def growMsg : String := "forcing trap when growing memory"

/-- The `run_gen`/`run_eval` stdout-pipe failure message. -/
def pipeMsg : String := "error getting contents of stdout pipe"

/-- Message standing for a propagated wasm trap error. -/
def trapMsg : String := "wasm trap"

/-- The message carried by a propagated inner run error. -/
def runErrMsg : RunErr → String
  | .trap _ => trapMsg
  | .host m => m

/-- The error raised when a trap-free host error is re-raised by `run_sub`. -/
def hostMsg (m : String) : String := m

/-- The `NotNan::from_str` failure propagated by `evaluate_on_test`. -/
def parseMsg : String := "score parse error"

/-- The `ok_or` error of the empty `max()` in `evaluate_submission`. -/
def maxErrMsg : String := "max err"

/-- Byte-for-byte list matcher used to model `str::contains`. -/
def isPrefixL : List Char → List Char → Bool
  | [], _ => true
  | _ :: _, [] => false
  | a :: as, b :: bs => a = b && isPrefixL as bs

/-- Substring containment on char lists (Rust `str::contains`). -/
def containsL (pat : List Char) : List Char → Bool
  | [] => decide (pat = [])
  | c :: rest => isPrefixL pat (c :: rest) || containsL pat rest

/-- Rust `str::contains` on strings. -/
def strContains (hay pat : String) : Bool :=
  containsL pat.toList hay.toList

/-- Rust `str::trim`: strip whitespace from both ends. -/
def trim (s : String) : String :=
  ⟨((s.toList.dropWhile Char.isWhitespace).reverse.dropWhile
      Char.isWhitespace).reverse⟩

/-- Value of a digit string. -/
def digitsToNat (cs : List Char) : Nat :=
  cs.foldl (fun a c => a * 10 + (c.toNat - 48)) 0

/-- Decimal fragment of Rust `f64::from_str`: `digits`, `digits.digits`,
`digits.` or `.digits`.  Exponents and the `inf`/`nan` spellings are outside
this model (a NaN would be rejected by `NotNan` anyway). -/
def parseUnsigned (cs : List Char) : Option ℚ :=
  match cs.span (fun c => c.isDigit) with
  | (ip, []) =>
    if ip = [] then Option.none else Option.some ((digitsToNat ip : Nat) : ℚ)
  | (ip, c :: frac) =>
    if (c = '.') ∧ (frac.all (fun c => c.isDigit) = true) ∧ ¬(ip = [] ∧ frac = [])
    then Option.some ((digitsToNat ip : ℚ) +
      (digitsToNat frac : ℚ) / ((10 : ℚ) ^ frac.length))
    else Option.none

/-- Model of `NotNan::<f64>::from_str` on the exact-decimal fragment: an
optional sign followed by a decimal number.  Scores produced by scorers are
decimal literals, which `f64` parsing maps exactly. -/
def parseScore (s : String) : Option ℚ :=
  match s.toList with
  | '-' :: rest => (parseUnsigned rest).map (fun q => -q)
  | '+' :: rest => parseUnsigned rest
  | cs => parseUnsigned cs

/-- `SubRes` from `src/evaluator/src/lib.rs`. -/
inductive SubRes
  | OK (out : String)
  | TLE
  | MLE
  | RTE
  | MFO
deriving DecidableEq

/-- `TestEval` from `src/evaluator/src/lib.rs`; scores are modelled as `ℚ`
(exact values of the `NotNan<f64>` scores). -/
inductive TestEval
  | Score (s : ℚ)
  | TLE
  | MLE
  | RTE
deriving DecidableEq

/-- The blake3 hasher is modelled by its update trace: the list of byte
chunks fed to it, in order. -/
abbrev Hasher := List (List Nat)

/-- Outcome of one `run_wasi` invocation as seen by its caller.
`setup` is the outer `anyhow::Result` (linker, instantiation and
`_start`-lookup failures, which return before the hasher is touched);
`call` is the inner result of calling `_start`; `stdoutPipe` is the captured
stdout already decoded as text, with `none` standing for a pipe that cannot
be unwrapped; `updates` are the hasher updates this run performs (the final
memory image and, for fuel-metered runs, the consumed fuel bytes). -/
structure RunOutcome where
  setup : Option String
  call : Except RunErr Unit
  stdoutPipe : Option String
  updates : List (List Nat)

/-- The deterministic behavior of the wasm runtime on one fixed
(gen, sub, eval) module triple under fixed limits: the outcome of each of
the three runs for each test id.  `evaluate_on_test` feeds gen's stdout to
sub and sub's stdout to eval; determinism makes every per-test outcome a
function of the test id alone, which is how the runtime is abstracted
here. -/
structure RunOracle where
  gen : Nat → RunOutcome
  sub : Nat → RunOutcome
  eval : Nat → RunOutcome

/-- `run_gen`: any setup error, trap or pipe failure aborts; on success the
captured stdout is returned and the hasher has absorbed the run's
updates. -/
def run_gen (o : RunOutcome) (hasher : Hasher) :
    Except String (String × Hasher) :=
  match o.setup with
  | some e => .error e
  | Option.none =>
    match o.call with
    | .error e => .error (runErrMsg e)
    | .ok () =>
      match o.stdoutPipe with
      | Option.none => .error pipeMsg
      | some s => .ok (s, hasher ++ o.updates)

/-- `run_eval`: same shape as `run_gen`. -/
def run_eval (o : RunOutcome) (hasher : Hasher) :
    Except String (String × Hasher) :=
  match o.setup with
  | some e => .error e
  | Option.none =>
    match o.call with
    | .error e => .error (runErrMsg e)
    | .ok () =>
      match o.stdoutPipe with
      | Option.none => .error pipeMsg
      | some s => .ok (s, hasher ++ o.updates)

/-- `run_sub`: classify the inner result.  Success with a readable stdout
pipe is `OK`; success with an un-unwrappable pipe is `MFO`; `OutOfFuel` is
`TLE`; `MemoryOutOfBounds` and `TableOutOfBounds` are `MLE`; any other trap
is `RTE`; a trap-free host error is `MLE` when its message contains the
grow-failure string and is re-raised as an error otherwise. -/
def run_sub (o : RunOutcome) (hasher : Hasher) :
    Except String (SubRes × Hasher) :=
  match o.setup with
  | some e => .error e
  | Option.none =>
    match o.call with
    | .ok () =>
      match o.stdoutPipe with
      | some s => .ok (.OK s, hasher ++ o.updates)
      | Option.none => .ok (.MFO, hasher ++ o.updates)
    | .error (.trap .outOfFuel) => .ok (.TLE, hasher ++ o.updates)
    | .error (.trap .memoryOutOfBounds) => .ok (.MLE, hasher ++ o.updates)
    | .error (.trap .tableOutOfBounds) => .ok (.MLE, hasher ++ o.updates)
    | .error (.trap (.otherTrap _)) => .ok (.RTE, hasher ++ o.updates)
    | .error (.host m) =>
      if strContains m growMsg then .ok (.MLE, hasher ++ o.updates)
      else .error (hostMsg m)

/-- `evaluate_on_test`: run gen, sub and (on `OK`) eval; parse the scorer's
trimmed stdout as a score; `MFO` scores 0; trap verdicts map through. -/
def evaluate_on_test (o : RunOracle) (test_id : Nat) (hasher : Hasher) :
    Except String (TestEval × Hasher) :=
  match run_gen (o.gen test_id) hasher with
  | .error e => .error e
  | .ok (_tc, h1) =>
    match run_sub (o.sub test_id) h1 with
    | .error e => .error e
    | .ok (sres, h2) =>
      match sres with
      | .OK _out =>
        match run_eval (o.eval test_id) h2 with
        | .error e => .error e
        | .ok (evout, h3) =>
          match parseScore (trim evout) with
          | some q => .ok (.Score q, h3)
          | Option.none => .error parseMsg
      | .TLE => .ok (.TLE, h2)
      | .MLE => .ok (.MLE, h2)
      | .RTE => .ok (.RTE, h2)
      | .MFO => .ok (.Score 0, h2)

/-- Evaluate tests `start, start+1, …` (`cnt` of them) in order, threading
the hasher and stopping at the first error. -/
def evalTests (o : RunOracle) (start : Nat) (cnt : Nat) (hasher : Hasher) :
    Except String (List TestEval × Hasher) :=
  match cnt with
  | 0 => .ok ([], hasher)
  | cnt + 1 =>
    match evaluate_on_test o start hasher with
    | .error e => .error e
    | .ok (te, h1) =>
      match evalTests o (start + 1) cnt h1 with
      | .error e => .error e
      | .ok (tes, h2) => .ok (te :: tes, h2)

/-- `evaluate_on_testset`: tests `0 .. testset_length - 1` in order. -/
def evaluate_on_testset (o : RunOracle) (testset_length : Nat)
    (hasher : Hasher) : Except String (List TestEval × Hasher) :=
  evalTests o 0 testset_length hasher

/-- The per-verdict score used by the aggregate: a `Score` keeps its value,
`TLE`/`MLE`/`RTE` count as 0. -/
def scoreOf : TestEval → ℚ
  | .Score s => s
  | _ => 0

/-- Outcomes of the compilation steps at the top of `evaluate_submission`
(engine construction and `Module::from_binary` for the three modules);
`some` is an error. -/
structure CompileOracle where
  submission_engine : Option String
  contest_engine : Option String
  gen_module : Option String
  eval_module : Option String
  sub_module : Option String

/-- `evaluate_submission`: build engines and modules, run the testset from a
fresh hasher, and return the maximum mapped score together with the
finalized digest (`fin` models `blake3::Hasher::finalize`).  An empty
score iterator is the `ok_or` error. -/
def evaluate_submission (fin : Hasher → Nat) (c : CompileOracle)
    (o : RunOracle) (testset_length : Nat) : Except String (ℚ × Nat) :=
  match c.submission_engine with
  | some e => .error e
  | Option.none =>
  match c.contest_engine with
  | some e => .error e
  | Option.none =>
  match c.gen_module with
  | some e => .error e
  | Option.none =>
  match c.eval_module with
  | some e => .error e
  | Option.none =>
  match c.sub_module with
  | some e => .error e
  | Option.none =>
  match evaluate_on_testset o testset_length [] with
  | .error e => .error e
  | .ok (ev, h) =>
    match (ev.map scoreOf).max? with
    | some m => .ok (m, fin h)
    | Option.none => .error maxErrMsg

/-- A successful run outcome whose stdout reads `s`. -/
def okRun (s : String) : RunOutcome :=
  { setup := Option.none, call := .ok (), stdoutPipe := some s, updates := [] }

/-- Scorer stdout used in the concrete scenarios. -/
def twoStr : String := "2"

/-- Generator/submission stdout used in the concrete scenarios. -/
def tcStr : String := "17"

/-- A concrete all-successful oracle whose scorer prints `2` on every
test. -/
def oracle2 : RunOracle :=
  { gen := fun _ => okRun tcStr
    sub := fun _ => okRun tcStr
    eval := fun _ => okRun twoStr }

/-- The compile oracle with every step succeeding. -/
def compOk : CompileOracle :=
  { submission_engine := Option.none
    contest_engine := Option.none
    gen_module := Option.none
    eval_module := Option.none
    sub_module := Option.none }

end Eval



namespace Wire

/-- `MAX_PACKET_SIZE = 1280` (to avoid ip fragmentation). -/
def MAX_PACKET_SIZE : Nat := 1280

/-- `MAX_MESSAGE_SIZE = MAX_PACKET_SIZE − 48` (40 ipv6 header, 8 udp). -/
def MAX_MESSAGE_SIZE : Nat := MAX_PACKET_SIZE - 48

/-- `FILE_CHUNK_SIZE = MAX_MESSAGE_SIZE − 1 − 32 − 32 − 4 − 12`
(message tag, mac, hash, offset, nonce). -/
def FILE_CHUNK_SIZE : Nat := MAX_MESSAGE_SIZE - 1 - 32 - 32 - 4 - 12

end Wire

namespace FStore

/-- `FileHash = Mac`, abstracted to `Nat`; the blake3 hash function is the
`hash3` argument of the operations below. -/
abbrev FileHash := Nat

/-- `FileParts { enc_key, present, data }`: the partial-file reassembly
buffer.  The encryption key is opaque. -/
structure FileParts where
  enc_key : Nat
  present : List Bool
  data : List Nat
deriving DecidableEq

/-- `FileParts::new(size, enc_key)`: a cleared bitmap with one bit per
chunk and a zero-filled buffer of `size` bytes. -/
def FileParts.new (size : Nat) (enc_key : Nat) : FileParts :=
  { enc_key
    present := List.replicate
      ((size + Wire.FILE_CHUNK_SIZE - 1) / Wire.FILE_CHUNK_SIZE) false
    data := List.replicate size 0 }

/-- `FileParts::nchunks`. -/
def FileParts.nchunks (fp : FileParts) : Nat :=
  (fp.data.length + Wire.FILE_CHUNK_SIZE - 1) / Wire.FILE_CHUNK_SIZE

/-- `FileParts::is_full`: the bitmap has as many set bits as chunks. -/
def FileParts.is_full (fp : FileParts) : Bool :=
  fp.nchunks == fp.present.count true

/-- Overwrite `data[sl .. sl + bytes.length)` with `bytes`
(`copy_from_slice`). -/
def splice (data : List Nat) (sl : Nat) (bytes : List Nat) : List Nat :=
  data.take sl ++ bytes ++ data.drop (sl + bytes.length)

/-- `FileParts::add_chunk`: if the chunk is not present yet, mark it and
copy the bytes into the buffer window. -/
def FileParts.add_chunk (fp : FileParts) (chunki : Nat) (bytes : List Nat) :
    FileParts :=
  if fp.present.getD chunki false then fp
  else
    { fp with
      present := fp.present.set chunki true
      data := splice fp.data (chunki * Wire.FILE_CHUNK_SIZE) bytes }

/-- `FileParts::add_enc_chunk`: `dec` is the result of
`chunk.inner(&self.enc_key)` — the ChaCha decryption and `FileChunk`
decoding are abstracted into the already-decrypted option.  A chunk index
beyond the bitmap panics in the source; here it reads as "absent". -/
def FileParts.add_enc_chunk (fp : FileParts) (chunki : Nat)
    (dec : Option (List Nat)) : FileParts :=
  if fp.present.getD chunki false then fp
  else
    match dec with
    | Option.none => fp
    | some bytes =>
      let sr := min Wire.FILE_CHUNK_SIZE
        (fp.data.length - chunki * Wire.FILE_CHUNK_SIZE)
      fp.add_chunk chunki (bytes.take sr)

/-- The `FileStore` state: association lists model the two keyed concurrent
maps; a `full_files` cell holds `none` until its `OnceCell` is set with the
file's plaintext bytes (the `FullFile`'s random `enc_key` plays no role in
the claims and is dropped). -/
structure FileStore where
  file_parts : List (FileHash × FileParts)
  full_files : List (FileHash × Option (List Nat))
deriving DecidableEq

/-- `FileStore::new`. -/
def FileStore.new : FileStore := { file_parts := [], full_files := [] }

/-- Replace the value of the first entry with the given key. -/
def setFirst {β : Type} (k : Nat) (v : β) :
    List (Nat × β) → List (Nat × β)
  | [] => []
  | p :: ps => if p.1 == k then (k, v) :: ps else p :: setFirst k v ps

/-- Remove every entry with the given key (`HashMap::remove`). -/
def removeKey {β : Type} (k : Nat) (l : List (Nat × β)) : List (Nat × β) :=
  l.filter (fun p => !(p.1 == k))

/-- `entry(h).or_insert(OnceCell::new()).get().set(d)`: create the cell if
absent and set it only if it has never been set. -/
def cellSet (ff : List (FileHash × Option (List Nat))) (h : FileHash)
    (d : List Nat) : List (FileHash × Option (List Nat)) :=
  match ff.lookup h with
  | Option.none => (h, some d) :: ff
  | some Option.none => setFirst h (some d) ff
  | some (some _) => ff

/-- `FileStore::add_done`: hash the bytes, store them as fully received,
return the hash. -/
def FileStore.add_done (hash3 : List Nat → FileHash) (st : FileStore)
    (data : List Nat) : FileStore × FileHash :=
  let h := hash3 data
  ({ st with full_files := cellSet st.full_files h data }, h)

/-- `FileStore::add_new`: register a partial file; the underlying
`insert_async` does nothing when the key is already present. -/
def FileStore.add_new (st : FileStore) (h : FileHash) (size : Nat)
    (enc_key : Nat) : FileStore :=
  match st.file_parts.lookup h with
  | some _ => st
  | Option.none =>
    { st with file_parts := (h, FileParts.new size enc_key) :: st.file_parts }

/-- `FileStore::add_enc_chunk`: decrypt and insert the chunk; once the
bitmap is full, remove the partial entry and, only if the reassembled
buffer hashes to the key, promote it to fully received (`Some(true)`);
on hash mismatch the entry stays removed and `None` is returned;
otherwise report `Some(false)`; unknown hashes return `None`. -/
def FileStore.add_enc_chunk (hash3 : List Nat → FileHash) (st : FileStore)
    (h : FileHash) (chunki : Nat) (dec : Option (List Nat)) :
    FileStore × Option Bool :=
  match st.file_parts.lookup h with
  | Option.none => (st, Option.none)
  | some fp =>
    if (fp.add_enc_chunk chunki dec).is_full then
      if hash3 (fp.add_enc_chunk chunki dec).data = h then
        ({ file_parts := removeKey h st.file_parts
           full_files := cellSet st.full_files h
             (fp.add_enc_chunk chunki dec).data }, some true)
      else ({ st with file_parts := removeKey h st.file_parts }, Option.none)
    else
      ({ st with
         file_parts := setFirst h (fp.add_enc_chunk chunki dec) st.file_parts },
        some false)

/-- A `FileStore` operation. -/
inductive FOp
  | done (data : List Nat)
  | newPartial (h : FileHash) (size : Nat) (ek : Nat)
  | chunk (h : FileHash) (chunki : Nat) (dec : Option (List Nat))

/-- Apply one operation (dropping returned values). -/
def applyFOp (hash3 : List Nat → FileHash) (st : FileStore) :
    FOp → FileStore
  | .done data => (st.add_done hash3 data).1
  | .newPartial h size ek => st.add_new h size ek
  | .chunk h i dec => (st.add_enc_chunk hash3 h i dec).1

/-- Apply a sequence of operations. -/
def runFOps (hash3 : List Nat → FileHash) (st : FileStore) :
    List FOp → FileStore
  | [] => st
  | op :: ops => runFOps hash3 (applyFOp hash3 st op) ops

/-- The completion invariant: every fully received entry's bytes hash to
exactly its key. -/
def DoneOk (hash3 : List Nat → FileHash) (st : FileStore) : Prop :=
  ∀ h d, st.full_files.lookup h = some (some d) → hash3 d = h

/-- A concrete stand-in hash function for the witnesses. -/
def hash3c : List Nat → FileHash := fun l => l.foldl (fun a b => a + b) 0

/-- A concrete store with one fully received file (bytes `[2, 3]`, which
`hash3c` maps to `5`). -/
def doneStore : FileStore :=
  { file_parts := [], full_files := [(5, some [2, 3])] }

end FStore



namespace Wire

/-! The wire codec.  Serialization is little-endian (speedy's
`LittleEndian` context on a little-endian host): multi-byte integers are
written low byte first; the hand-written `Readable`/`Writable` impls for
the fixed 32/64-byte key, mac and signature types reverse their byte
arrays symmetrically on both write and read; variable-length sequences
carry a 32-bit length; the two chat strings carry an 8-bit length.
Bytes are `Nat`s; well-formedness (`wf…`) captures the Rust-type
invariants (field widths, array lengths, UTF-8 validity of strings,
ed25519 key validity via the abstract predicate `vk`, non-NaN scores). -/

/-- Write an unsigned integer as `w` little-endian bytes. -/
def wLE : Nat → Nat → List Nat
  | 0, _ => []
  | w + 1, n => (n % 256) :: wLE w (n / 256)

/-- Read `w` little-endian bytes into an unsigned integer. -/
def rLE : Nat → List Nat → Option (Nat × List Nat)
  | 0, bs => some (0, bs)
  | _ + 1, [] => Option.none
  | w + 1, b :: bs => (rLE w bs).map (fun p => (b + 256 * p.1, p.2))

/-- Read one byte. -/
def rU8 : List Nat → Option (Nat × List Nat)
  | [] => Option.none
  | b :: bs => some (b, bs)

/-- Read exactly `n` raw bytes. -/
def rBytes (n : Nat) (bs : List Nat) : Option (List Nat × List Nat) :=
  if bs.length < n then Option.none else some (bs.take n, bs.drop n)

/-- Read exactly `n` bytes and reverse them (the symmetric reversal done by
the hand-written key/mac/signature impls). -/
def rBytesRev (n : Nat) (bs : List Nat) : Option (List Nat × List Nat) :=
  if bs.length < n then Option.none else some ((bs.take n).reverse, bs.drop n)

/-- Write a `Vec<u8>`: 32-bit length then the bytes. -/
def wVecU8 (l : List Nat) : List Nat := wLE 4 l.length ++ l

/-- Read a `Vec<u8>`. -/
def rVecU8 (bs : List Nat) : Option (List Nat × List Nat) :=
  (rLE 4 bs).bind fun p => rBytes p.1 p.2

/-- Byte-array well-formedness: exact length, every byte below 256. -/
def bytesOk (n : Nat) (l : List Nat) : Bool :=
  l.length == n && l.all (fun b => b < 256)

/-- UTF-8 continuation byte. -/
def isCont (b : Nat) : Bool := 128 ≤ b && b ≤ 191

/-- UTF-8 validity (RFC 3629), as checked by `String::from_utf8`. -/
def utf8Ok : List Nat → Bool
  | [] => true
  | b :: rest =>
    if b ≤ 127 then utf8Ok rest
    else if 194 ≤ b && b ≤ 223 then
      match rest with
      | b1 :: rest2 => isCont b1 && utf8Ok rest2
      | [] => false
    else if b == 224 then
      match rest with
      | b1 :: b2 :: rest2 =>
        (160 ≤ b1 && b1 ≤ 191) && isCont b2 && utf8Ok rest2
      | _ => false
    else if (225 ≤ b && b ≤ 236) || (238 ≤ b && b ≤ 239) then
      match rest with
      | b1 :: b2 :: rest2 => isCont b1 && isCont b2 && utf8Ok rest2
      | _ => false
    else if b == 237 then
      match rest with
      | b1 :: b2 :: rest2 =>
        (128 ≤ b1 && b1 ≤ 159) && isCont b2 && utf8Ok rest2
      | _ => false
    else if b == 240 then
      match rest with
      | b1 :: b2 :: b3 :: rest2 =>
        (144 ≤ b1 && b1 ≤ 191) && isCont b2 && isCont b3 && utf8Ok rest2
      | _ => false
    else if 241 ≤ b && b ≤ 243 then
      match rest with
      | b1 :: b2 :: b3 :: rest2 =>
        isCont b1 && isCont b2 && isCont b3 && utf8Ok rest2
      | _ => false
    else if b == 244 then
      match rest with
      | b1 :: b2 :: b3 :: rest2 =>
        (128 ≤ b1 && b1 ≤ 143) && isCont b2 && isCont b3 && utf8Ok rest2
      | _ => false
    else false

/-- A Rust `String`, kept as its UTF-8 bytes. -/
structure StrB where
  bytes : List Nat
deriving DecidableEq

/-- Well-formed u8-length-prefixed string: valid UTF-8, at most 255
bytes. -/
def wfStrU8 (s : StrB) : Bool :=
  utf8Ok s.bytes && s.bytes.length ≤ 255 && s.bytes.all (fun b => b < 256)

/-- Write a `#[speedy(length_type=u8)] String`. -/
def wStrU8 (s : StrB) : List Nat := (s.bytes.length % 256) :: s.bytes

/-- Read a u8-length string, validating UTF-8. -/
def rStrU8 (bs : List Nat) : Option (StrB × List Nat) :=
  (rU8 bs).bind fun p =>
  (rBytes p.1 p.2).bind fun q =>
  if utf8Ok q.1 then some (⟨q.1⟩, q.2) else Option.none

/-- Write an `Option<u32>`: tag byte 0/1, then the value if present. -/
def wOptU32 : Option Nat → List Nat
  | Option.none => [0]
  | some n => 1 :: wLE 4 n

/-- Read an `Option<u32>`. -/
def rOptU32 (bs : List Nat) : Option (Option Nat × List Nat) :=
  (rU8 bs).bind fun p =>
  match p.1 with
  | 0 => some (Option.none, p.2)
  | 1 => (rLE 4 p.2).map fun q => (some q.1, q.2)
  | _ => Option.none

/-- The fixed XOR pad of `Obfuscated<T>`. -/
def OBFUSCATION_BYTES : List Nat :=
  [185, 174, 209, 69, 42, 248, 31, 131, 3, 22, 177, 242, 148, 120, 109, 165,
   163, 207, 114, 158, 146, 106, 82, 236, 83, 188, 149, 239, 189, 232, 255,
   90]

/-- XOR the bytes with the pad, cycled via `i & 31`, starting at index
`i`. -/
def obfMaskFrom (i : Nat) : List Nat → List Nat
  | [] => []
  | b :: rest =>
    (b ^^^ OBFUSCATION_BYTES.getD (i &&& 31) 0) :: obfMaskFrom (i + 1) rest

/-- The obfuscation masking applied on both write and read. -/
def obfMask (l : List Nat) : List Nat := obfMaskFrom 0 l

end Wire


namespace Wire

/-- `PubSigKey` (ed25519 verifying key): 32 bytes that decompress to a
curve point; validity is the abstract predicate `vk` below. -/
structure PubSigKey where
  bytes : List Nat
deriving DecidableEq

/-- `PubKexKey` (x25519 public key): 32 bytes, any value accepted. -/
structure PubKexKey where
  bytes : List Nat
deriving DecidableEq

/-- `Signature`: 64 bytes, any value accepted on read. -/
structure Sig64 where
  bytes : List Nat
deriving DecidableEq

/-- `Mac` (= `FileHash` = `DetailHash`): a 32-byte blake3 output. -/
structure MacB where
  bytes : List Nat
deriving DecidableEq

/-- `EncKey`: 32 bytes (its buggy `bytes_needed` of 12 never affects the
bytes actually written and read, which are 32). -/
structure EncKeyB where
  bytes : List Nat
deriving DecidableEq

/-- `EncNonce`: 12 bytes. -/
structure EncNonceB where
  bytes : List Nat
deriving DecidableEq

/-- `Timestamp = SystemTime`, serialized by speedy as the duration since
the epoch: seconds as u64 then subsecond nanos as u32 (spec §6). -/
structure TimestampB where
  secs : Nat
  nanos : Nat
deriving DecidableEq

/-- `Entity`. -/
inductive EntityB
  | server
  | worker
  | participant
  | spectator
deriving DecidableEq

/-- `IpAddr`: a v4 (4 octets) or v6 (16 octets) address. -/
inductive IpAddrB
  | v4 (o : List Nat)
  | v6 (o : List Nat)
deriving DecidableEq

/-- `PeerAddr { ip, port }`. -/
structure PeerAddrB where
  ip : IpAddrB
  port : Nat
deriving DecidableEq

/-- `SubScore`: a `NotNan<f64>`, kept as its 64-bit IEEE-754 bit
pattern. -/
structure SubScoreB where
  bits : Nat
deriving DecidableEq

/-- NaN bit patterns: exponent all ones with a nonzero mantissa. -/
def isNanBits (b : Nat) : Bool :=
  ((b >>> 52) &&& 2047 == 2047) && (b &&& (2 ^ 52 - 1) != 0)

/-- Bit patterns of doubles in `[0, 1]`: non-negative doubles order like
their bit patterns, so the range is `[0.0, 1.0]`'s patterns
`0 .. 0x3FF0000000000000`, plus `-0.0` (`0x8000000000000000`), which the
inclusive range check also admits.  No NaN pattern is included. -/
def inRange01 (b : Nat) : Bool :=
  b ≤ 0x3FF0000000000000 || b == 0x8000000000000000

/-- Wf: `u64` bit pattern of a non-NaN double. -/
def wfSubScore (s : SubScoreB) : Bool :=
  s.bits < 2 ^ 64 && !isNanBits s.bits

/-- `SubScore` write: the f64 bits, little-endian. -/
def wSubScore (s : SubScoreB) : List Nat := wLE 8 s.bits

/-- `SubScore` read: reject scores outside `0.0 ..= 1.0` (this also rejects
every NaN, which fails both comparisons). -/
def rSubScore (bs : List Nat) : Option (SubScoreB × List Nat) :=
  (rLE 8 bs).bind fun p =>
  if inRange01 p.1 then some (⟨p.1⟩, p.2) else Option.none

/-- Wf and codecs for the fixed-size byte newtypes. -/
def wfPubSigKey (vk : List Nat → Bool) (k : PubSigKey) : Bool :=
  bytesOk 32 k.bytes && vk k.bytes

def wPubSigKey (k : PubSigKey) : List Nat := k.bytes.reverse

def rPubSigKey (vk : List Nat → Bool) (bs : List Nat) :
    Option (PubSigKey × List Nat) :=
  (rBytesRev 32 bs).bind fun p =>
  if vk p.1 then some (⟨p.1⟩, p.2) else Option.none

def wfPubKexKey (k : PubKexKey) : Bool := bytesOk 32 k.bytes

def wPubKexKey (k : PubKexKey) : List Nat := k.bytes.reverse

def rPubKexKey (bs : List Nat) : Option (PubKexKey × List Nat) :=
  (rBytesRev 32 bs).map fun p => (⟨p.1⟩, p.2)

def wfSig64 (s : Sig64) : Bool := bytesOk 64 s.bytes

def wSig64 (s : Sig64) : List Nat := s.bytes.reverse

def rSig64 (bs : List Nat) : Option (Sig64 × List Nat) :=
  (rBytesRev 64 bs).map fun p => (⟨p.1⟩, p.2)

def wfMacB (m : MacB) : Bool := bytesOk 32 m.bytes

def wMacB (m : MacB) : List Nat := m.bytes.reverse

def rMacB (bs : List Nat) : Option (MacB × List Nat) :=
  (rBytesRev 32 bs).map fun p => (⟨p.1⟩, p.2)

def wfEncKeyB (k : EncKeyB) : Bool := bytesOk 32 k.bytes

def wEncKeyB (k : EncKeyB) : List Nat := k.bytes.reverse

def rEncKeyB (bs : List Nat) : Option (EncKeyB × List Nat) :=
  (rBytesRev 32 bs).map fun p => (⟨p.1⟩, p.2)

def wfEncNonceB (n : EncNonceB) : Bool := bytesOk 12 n.bytes

def wEncNonceB (n : EncNonceB) : List Nat := n.bytes.reverse

def rEncNonceB (bs : List Nat) : Option (EncNonceB × List Nat) :=
  (rBytesRev 12 bs).map fun p => (⟨p.1⟩, p.2)

/-- Wf: seconds fit u64, nanos are a subsecond count. -/
def wfTimestamp (t : TimestampB) : Bool :=
  t.secs < 2 ^ 64 && t.nanos < 1000000000

def wTimestamp (t : TimestampB) : List Nat := wLE 8 t.secs ++ wLE 4 t.nanos

/-- Read a timestamp; `Duration::new` normalizes overlarge nano counts. -/
def rTimestamp (bs : List Nat) : Option (TimestampB × List Nat) :=
  (rLE 8 bs).bind fun p =>
  (rLE 4 p.2).map fun q =>
  (⟨p.1 + q.1 / 1000000000, q.1 % 1000000000⟩, q.2)

def wEntity : EntityB → List Nat
  | .server => [0]
  | .worker => [1]
  | .participant => [2]
  | .spectator => [3]

def rEntity (bs : List Nat) : Option (EntityB × List Nat) :=
  (rU8 bs).bind fun p =>
  match p.1 with
  | 0 => some (.server, p.2)
  | 1 => some (.worker, p.2)
  | 2 => some (.participant, p.2)
  | 3 => some (.spectator, p.2)
  | _ => Option.none

/-- Wf: 4 or 16 in-range octets. -/
def wfIpAddr : IpAddrB → Bool
  | .v4 o => bytesOk 4 o
  | .v6 o => bytesOk 16 o

/-- `IpAddr` on the wire: tag byte then the octets. -/
def wIpAddr : IpAddrB → List Nat
  | .v4 o => 0 :: o
  | .v6 o => 1 :: o

def rIpAddr (bs : List Nat) : Option (IpAddrB × List Nat) :=
  (rU8 bs).bind fun p =>
  match p.1 with
  | 0 => (rBytes 4 p.2).map fun q => (.v4 q.1, q.2)
  | 1 => (rBytes 16 p.2).map fun q => (.v6 q.1, q.2)
  | _ => Option.none

def wfPeerAddr (a : PeerAddrB) : Bool := wfIpAddr a.ip && a.port < 2 ^ 16

def wPeerAddr (a : PeerAddrB) : List Nat := wIpAddr a.ip ++ wLE 2 a.port

def rPeerAddr (bs : List Nat) : Option (PeerAddrB × List Nat) :=
  (rIpAddr bs).bind fun p =>
  (rLE 2 p.2).map fun q => (⟨p.1, q.1⟩, q.2)

end Wire


namespace Wire

/-- `EncKeyId`: the recursive access-policy expression. -/
inductive EncKeyId
  | CustomPublic (n : Nat)
  | IsEntity (e : EntityB)
  | IsClient (k : PubSigKey)
  | ProblemSolved (p : Nat)
  | Or (l : List EncKeyId)
  | And (l : List EncKeyId)

mutual

/-- Write an `EncKeyId`: tag byte then the payload; `Or`/`And` carry a
32-bit count then the children. -/
def wEncKeyId : EncKeyId → List Nat
  | .CustomPublic n => 0 :: wLE 4 n
  | .IsEntity e => 1 :: wEntity e
  | .IsClient k => 2 :: wPubSigKey k
  | .ProblemSolved p => 3 :: wLE 4 p
  | .Or l => 4 :: (wLE 4 l.length ++ wEncKeyIdL l)
  | .And l => 5 :: (wLE 4 l.length ++ wEncKeyIdL l)

def wEncKeyIdL : List EncKeyId → List Nat
  | [] => []
  | x :: xs => wEncKeyId x ++ wEncKeyIdL xs

end

mutual

def wfEncKeyId (vk : List Nat → Bool) : EncKeyId → Bool
  | .CustomPublic n => decide (n < 2 ^ 32)
  | .IsEntity _ => true
  | .IsClient k => wfPubSigKey vk k
  | .ProblemSolved p => decide (p < 2 ^ 32)
  | .Or l => decide (l.length < 2 ^ 32) && wfEncKeyIdL vk l
  | .And l => decide (l.length < 2 ^ 32) && wfEncKeyIdL vk l

def wfEncKeyIdL (vk : List Nat → Bool) : List EncKeyId → Bool
  | [] => true
  | x :: xs => wfEncKeyId vk x && wfEncKeyIdL vk xs

end

mutual

/-- Nesting depth, used to pick a sufficient parser fuel. -/
def keyIdDepth : EncKeyId → Nat
  | .Or l => 1 + keyIdDepthL l
  | .And l => 1 + keyIdDepthL l
  | _ => 1

def keyIdDepthL : List EncKeyId → Nat
  | [] => 0
  | x :: xs => max (keyIdDepth x) (keyIdDepthL xs)

end

mutual

/-- Structural Boolean equality on `EncKeyId`. -/
def beqKeyId : EncKeyId → EncKeyId → Bool
  | .CustomPublic a, .CustomPublic b => a == b
  | .IsEntity a, .IsEntity b => a == b
  | .IsClient a, .IsClient b => a == b
  | .ProblemSolved a, .ProblemSolved b => a == b
  | .Or a, .Or b => beqKeyIdL a b
  | .And a, .And b => beqKeyIdL a b
  | _, _ => false

def beqKeyIdL : List EncKeyId → List EncKeyId → Bool
  | [], [] => true
  | a :: as, b :: bs => beqKeyId a b && beqKeyIdL as bs
  | _, _ => false

end

mutual

/-- Soundness and completeness of `beqKeyId`, used to build decidable
equality for the nested inductive. -/
def beqKeyId_iff : ∀ a b : EncKeyId, beqKeyId a b = true ↔ a = b
  | .CustomPublic a, b => by
    cases b <;> simp [beqKeyId]
  | .IsEntity a, b => by
    cases b <;> simp [beqKeyId]
  | .IsClient a, b => by
    cases b <;> simp [beqKeyId]
  | .ProblemSolved a, b => by
    cases b <;> simp [beqKeyId]
  | .Or a, b => by
    cases b <;> simp [beqKeyId, beqKeyIdL_iff a]
  | .And a, b => by
    cases b <;> simp [beqKeyId, beqKeyIdL_iff a]

def beqKeyIdL_iff : ∀ a b : List EncKeyId, beqKeyIdL a b = true ↔ a = b
  | [], b => by
    cases b <;> simp [beqKeyIdL]
  | a :: as, b => by
    cases b with
    | nil => simp [beqKeyIdL]
    | cons c cs =>
      simp [beqKeyIdL, beqKeyId_iff a c, beqKeyIdL_iff as cs]

end

instance : DecidableEq EncKeyId := fun a b =>
  decidable_of_iff (beqKeyId a b = true) (beqKeyId_iff a b)

mutual

/-- Fueled `EncKeyId` parser; the fuel only bounds the nesting depth, so
any fuel at least the depth parses the full value.  The source recurses
directly; the fuel is the embedding's termination device. -/
def rEncKeyIdF (vk : List Nat → Bool) : Nat → List Nat →
    Option (EncKeyId × List Nat)
  | 0, _ => Option.none
  | fuel + 1, bs =>
    (rU8 bs).bind fun p =>
    match p.1 with
    | 0 => (rLE 4 p.2).map fun q => (.CustomPublic q.1, q.2)
    | 1 => (rEntity p.2).map fun q => (.IsEntity q.1, q.2)
    | 2 => (rPubSigKey vk p.2).map fun q => (.IsClient q.1, q.2)
    | 3 => (rLE 4 p.2).map fun q => (.ProblemSolved q.1, q.2)
    | 4 =>
      (rLE 4 p.2).bind fun q =>
      (rEncKeyIdLF vk fuel q.1 q.2).map fun r => (.Or r.1, r.2)
    | 5 =>
      (rLE 4 p.2).bind fun q =>
      (rEncKeyIdLF vk fuel q.1 q.2).map fun r => (.And r.1, r.2)
    | _ => Option.none
termination_by fuel _ => (fuel, 0)

def rEncKeyIdLF (vk : List Nat → Bool) : Nat → Nat → List Nat →
    Option (List EncKeyId × List Nat)
  | _, 0, bs => some ([], bs)
  | fuel, n + 1, bs =>
    (rEncKeyIdF vk fuel bs).bind fun p =>
    (rEncKeyIdLF vk fuel n p.2).map fun q => (p.1 :: q.1, q.2)
termination_by fuel n _ => (fuel, n + 1)

end

/-- The `EncKeyId` parser: enough fuel for any value the bytes can
possibly encode (each nesting level consumes at least one byte). -/
def rEncKeyId (vk : List Nat → Bool) (bs : List Nat) :
    Option (EncKeyId × List Nat) :=
  rEncKeyIdF vk (bs.length + 1) bs

end Wire


namespace Wire

/-- `SizedEncrypted<T, N>`: `N` raw ciphertext bytes then the 12-byte
nonce (reversed like every fixed array with a hand-written impl). -/
structure SizedEnc where
  data : List Nat
  nonce : List Nat
deriving DecidableEq

def wfSizedEnc (N : Nat) (se : SizedEnc) : Bool :=
  bytesOk N se.data && bytesOk 12 se.nonce

def wSizedEnc (se : SizedEnc) : List Nat := se.data ++ se.nonce.reverse

def rSizedEnc (N : Nat) (bs : List Nat) : Option (SizedEnc × List Nat) :=
  (rBytes N bs).bind fun p =>
  (rBytesRev 12 p.2).map fun q => (⟨p.1, q.1⟩, q.2)

/-- `Obfuscated<PeerAddr>`: the serialized address, masked, as a
length-prefixed `Vec<u8>`; reading unmasks and re-parses (trailing bytes
inside the vec are ignored, as by `read_from_buffer`). -/
def wObfPeerAddr (a : PeerAddrB) : List Nat := wVecU8 (obfMask (wPeerAddr a))

def rObfPeerAddr (bs : List Nat) : Option (PeerAddrB × List Nat) :=
  (rVecU8 bs).bind fun p =>
  (rPeerAddr (obfMask p.1)).map fun q => (q.1, p.2)

/-- `EncKeyInfo { id, key }`. -/
structure EncKeyInfo where
  id : EncKeyId
  key : EncKeyB
deriving DecidableEq

def wfEncKeyInfo (vk : List Nat → Bool) (x : EncKeyInfo) : Bool :=
  wfEncKeyId vk x.id && wfEncKeyB x.key

def wEncKeyInfo (x : EncKeyInfo) : List Nat := wEncKeyId x.id ++ wEncKeyB x.key

def rEncKeyInfo (vk : List Nat → Bool) (bs : List Nat) :
    Option (EncKeyInfo × List Nat) :=
  (rEncKeyId vk bs).bind fun p =>
  (rEncKeyB p.2).map fun q => (⟨p.1, q.1⟩, q.2)

/-- `QFileDesc { hash, size, key_encrypting_key, enc_encrypting_key }`. -/
structure QFileDesc where
  hash : MacB
  size : Nat
  key_encrypting_key : EncKeyId
  enc_encrypting_key : SizedEnc
deriving DecidableEq

def wfQFileDesc (vk : List Nat → Bool) (x : QFileDesc) : Bool :=
  wfMacB x.hash && decide (x.size < 2 ^ 32) &&
  wfEncKeyId vk x.key_encrypting_key && wfSizedEnc 32 x.enc_encrypting_key

def wQFileDesc (x : QFileDesc) : List Nat :=
  wMacB x.hash ++ wLE 4 x.size ++ wEncKeyId x.key_encrypting_key ++
    wSizedEnc x.enc_encrypting_key

def rQFileDesc (vk : List Nat → Bool) (bs : List Nat) :
    Option (QFileDesc × List Nat) :=
  (rMacB bs).bind fun p =>
  (rLE 4 p.2).bind fun q =>
  (rEncKeyId vk q.2).bind fun r =>
  (rSizedEnc 32 r.2).map fun s => (⟨p.1, q.1, r.1, s.1⟩, s.2)

/-- `SubmissionId { submitter, problem_id, file_id }`. -/
structure SubmissionId where
  submitter : PubSigKey
  problem_id : Nat
  file_id : MacB
deriving DecidableEq

def wfSubmissionId (vk : List Nat → Bool) (x : SubmissionId) : Bool :=
  wfPubSigKey vk x.submitter && decide (x.problem_id < 2 ^ 32) &&
    wfMacB x.file_id

def wSubmissionId (x : SubmissionId) : List Nat :=
  wPubSigKey x.submitter ++ wLE 4 x.problem_id ++ wMacB x.file_id

def rSubmissionId (vk : List Nat → Bool) (bs : List Nat) :
    Option (SubmissionId × List Nat) :=
  (rPubSigKey vk bs).bind fun p =>
  (rLE 4 p.2).bind fun q =>
  (rMacB q.2).map fun r => (⟨p.1, q.1, r.1⟩, r.2)

/-- `EvaluationId { submission_id, evaluator }`. -/
structure EvaluationIdB where
  submission_id : SubmissionId
  evaluator : PubSigKey
deriving DecidableEq

def wfEvaluationId (vk : List Nat → Bool) (x : EvaluationIdB) : Bool :=
  wfSubmissionId vk x.submission_id && wfPubSigKey vk x.evaluator

def wEvaluationId (x : EvaluationIdB) : List Nat :=
  wSubmissionId x.submission_id ++ wPubSigKey x.evaluator

def rEvaluationId (vk : List Nat → Bool) (bs : List Nat) :
    Option (EvaluationIdB × List Nat) :=
  (rSubmissionId vk bs).bind fun p =>
  (rPubSigKey vk p.2).map fun q => (⟨p.1, q.1⟩, q.2)

/-- `QEvaluation { evaluation_id, score, detailhs_hash }`. -/
structure QEvaluationB where
  evaluation_id : EvaluationIdB
  score : SubScoreB
  detailhs_hash : MacB
deriving DecidableEq

def wfQEvaluation (vk : List Nat → Bool) (x : QEvaluationB) : Bool :=
  wfEvaluationId vk x.evaluation_id && wfSubScore x.score &&
    wfMacB x.detailhs_hash

def wQEvaluation (x : QEvaluationB) : List Nat :=
  wEvaluationId x.evaluation_id ++ wSubScore x.score ++ wMacB x.detailhs_hash

def rQEvaluation (vk : List Nat → Bool) (bs : List Nat) :
    Option (QEvaluationB × List Nat) :=
  (rEvaluationId vk bs).bind fun p =>
  (rSubScore p.2).bind fun q =>
  (rMacB q.2).map fun r => (⟨p.1, q.1, r.1⟩, r.2)

/-- `QEvaluationProof { evaluation_id, detailhs }`. -/
structure QEvaluationProofB where
  evaluation_id : EvaluationIdB
  detailhs : MacB
deriving DecidableEq

def wfQEvaluationProof (vk : List Nat → Bool) (x : QEvaluationProofB) : Bool :=
  wfEvaluationId vk x.evaluation_id && wfMacB x.detailhs

def wQEvaluationProof (x : QEvaluationProofB) : List Nat :=
  wEvaluationId x.evaluation_id ++ wMacB x.detailhs

def rQEvaluationProof (vk : List Nat → Bool) (bs : List Nat) :
    Option (QEvaluationProofB × List Nat) :=
  (rEvaluationId vk bs).bind fun p =>
  (rMacB p.2).map fun q => (⟨p.1, q.1⟩, q.2)

/-- `Vec<PubSigKey>`. -/
def wPSKList (l : List PubSigKey) : List Nat :=
  wLE 4 l.length ++ (l.map wPubSigKey).flatten

def rPSKListN (vk : List Nat → Bool) : Nat → List Nat →
    Option (List PubSigKey × List Nat)
  | 0, bs => some ([], bs)
  | n + 1, bs =>
    (rPubSigKey vk bs).bind fun p =>
    (rPSKListN vk n p.2).map fun q => (p.1 :: q.1, q.2)

def rPSKList (vk : List Nat → Bool) (bs : List Nat) :
    Option (List PubSigKey × List Nat) :=
  (rLE 4 bs).bind fun p => rPSKListN vk p.1 p.2

/-- `QEvaluationRequest { submission_id, evaluators }`. -/
structure QEvaluationRequest where
  submission_id : SubmissionId
  evaluators : List PubSigKey
deriving DecidableEq

def wfQEvaluationRequest (vk : List Nat → Bool) (x : QEvaluationRequest) :
    Bool :=
  wfSubmissionId vk x.submission_id &&
  decide (x.evaluators.length < 2 ^ 32) &&
  x.evaluators.all (wfPubSigKey vk)

def wQEvaluationRequest (x : QEvaluationRequest) : List Nat :=
  wSubmissionId x.submission_id ++ wPSKList x.evaluators

def rQEvaluationRequest (vk : List Nat → Bool) (bs : List Nat) :
    Option (QEvaluationRequest × List Nat) :=
  (rSubmissionId vk bs).bind fun p =>
  (rPSKList vk p.2).map fun q => (⟨p.1, q.1⟩, q.2)

/-- `QSubmission { submitter, problem_id, file_desc }`. -/
structure QSubmission where
  submitter : PubSigKey
  problem_id : Nat
  file_desc : QFileDesc
deriving DecidableEq

def wfQSubmission (vk : List Nat → Bool) (x : QSubmission) : Bool :=
  wfPubSigKey vk x.submitter && decide (x.problem_id < 2 ^ 32) &&
    wfQFileDesc vk x.file_desc

def wQSubmission (x : QSubmission) : List Nat :=
  wPubSigKey x.submitter ++ wLE 4 x.problem_id ++ wQFileDesc x.file_desc

def rQSubmission (vk : List Nat → Bool) (bs : List Nat) :
    Option (QSubmission × List Nat) :=
  (rPubSigKey vk bs).bind fun p =>
  (rLE 4 p.2).bind fun q =>
  (rQFileDesc vk q.2).map fun r => (⟨p.1, q.1, r.1⟩, r.2)

/-- `QProblemDesc`. -/
structure QProblemDesc where
  id : Nat
  statement : QFileDesc
  generator_file : QFileDesc
  scorer_file : QFileDesc
  n_testcases : Nat
deriving DecidableEq

def wfQProblemDesc (vk : List Nat → Bool) (x : QProblemDesc) : Bool :=
  decide (x.id < 2 ^ 32) && wfQFileDesc vk x.statement &&
  wfQFileDesc vk x.generator_file && wfQFileDesc vk x.scorer_file &&
  decide (x.n_testcases < 2 ^ 32)

def wQProblemDesc (x : QProblemDesc) : List Nat :=
  wLE 4 x.id ++ wQFileDesc x.statement ++ wQFileDesc x.generator_file ++
    wQFileDesc x.scorer_file ++ wLE 4 x.n_testcases

def rQProblemDesc (vk : List Nat → Bool) (bs : List Nat) :
    Option (QProblemDesc × List Nat) :=
  (rLE 4 bs).bind fun p =>
  (rQFileDesc vk p.2).bind fun q =>
  (rQFileDesc vk q.2).bind fun r =>
  (rQFileDesc vk r.2).bind fun s =>
  (rLE 4 s.2).map fun t => (⟨p.1, q.1, r.1, s.1, t.1⟩, t.2)

/-- `QAnnouncement { text (u8 length), context }`. -/
structure QAnnouncement where
  text : StrB
  context : Option Nat
deriving DecidableEq

def wfQAnnouncement (x : QAnnouncement) : Bool :=
  wfStrU8 x.text &&
  (match x.context with
   | some n => decide (n < 2 ^ 32)
   | Option.none => true)

def wQAnnouncement (x : QAnnouncement) : List Nat :=
  wStrU8 x.text ++ wOptU32 x.context

def rQAnnouncement (bs : List Nat) : Option (QAnnouncement × List Nat) :=
  (rStrU8 bs).bind fun p =>
  (rOptU32 p.2).map fun q => (⟨p.1, q.1⟩, q.2)

/-- `QPeerInfo { psk, addr: Obfuscated<PeerAddr>, entity }`. -/
structure QPeerInfo where
  psk : PubSigKey
  addr : PeerAddrB
  entity : EntityB
deriving DecidableEq

def wfQPeerInfo (vk : List Nat → Bool) (x : QPeerInfo) : Bool :=
  wfPubSigKey vk x.psk && wfPeerAddr x.addr

def wQPeerInfo (x : QPeerInfo) : List Nat :=
  wPubSigKey x.psk ++ wObfPeerAddr x.addr ++ wEntity x.entity

def rQPeerInfo (vk : List Nat → Bool) (bs : List Nat) :
    Option (QPeerInfo × List Nat) :=
  (rPubSigKey vk bs).bind fun p =>
  (rObfPeerAddr p.2).bind fun q =>
  (rEntity q.2).map fun r => (⟨p.1, q.1, r.1⟩, r.2)

end Wire


namespace Wire

/-- `QueueMessageInner`. -/
inductive QueueMessageInner
  | Submission (x : QSubmission)
  | EvaluationRequest (x : QEvaluationRequest)
  | Evaluation (x : QEvaluationB)
  | EvaluationProof (x : QEvaluationProofB)
  | ProblemDesc (x : QProblemDesc)
  | Announcement (x : QAnnouncement)
  | PublicKey (x : EncKeyInfo)
  | PeerInfo (x : QPeerInfo)
deriving DecidableEq

def wfQMI (vk : List Nat → Bool) : QueueMessageInner → Bool
  | .Submission x => wfQSubmission vk x
  | .EvaluationRequest x => wfQEvaluationRequest vk x
  | .Evaluation x => wfQEvaluation vk x
  | .EvaluationProof x => wfQEvaluationProof vk x
  | .ProblemDesc x => wfQProblemDesc vk x
  | .Announcement x => wfQAnnouncement x
  | .PublicKey x => wfEncKeyInfo vk x
  | .PeerInfo x => wfQPeerInfo vk x

def wQMI : QueueMessageInner → List Nat
  | .Submission x => 0 :: wQSubmission x
  | .EvaluationRequest x => 1 :: wQEvaluationRequest x
  | .Evaluation x => 2 :: wQEvaluation x
  | .EvaluationProof x => 3 :: wQEvaluationProof x
  | .ProblemDesc x => 4 :: wQProblemDesc x
  | .Announcement x => 5 :: wQAnnouncement x
  | .PublicKey x => 6 :: wEncKeyInfo x
  | .PeerInfo x => 7 :: wQPeerInfo x

def rQMI (vk : List Nat → Bool) (bs : List Nat) :
    Option (QueueMessageInner × List Nat) :=
  (rU8 bs).bind fun p =>
  match p.1 with
  | 0 => (rQSubmission vk p.2).map fun q => (.Submission q.1, q.2)
  | 1 => (rQEvaluationRequest vk p.2).map fun q => (.EvaluationRequest q.1, q.2)
  | 2 => (rQEvaluation vk p.2).map fun q => (.Evaluation q.1, q.2)
  | 3 => (rQEvaluationProof vk p.2).map fun q => (.EvaluationProof q.1, q.2)
  | 4 => (rQProblemDesc vk p.2).map fun q => (.ProblemDesc q.1, q.2)
  | 5 => (rQAnnouncement p.2).map fun q => (.Announcement q.1, q.2)
  | 6 => (rEncKeyInfo vk p.2).map fun q => (.PublicKey q.1, q.2)
  | 7 => (rQPeerInfo vk p.2).map fun q => (.PeerInfo q.1, q.2)
  | _ => Option.none

/-- `QueueMessage { id, timestamp, message }`. -/
structure QueueMessage where
  id : Nat
  timestamp : TimestampB
  message : QueueMessageInner
deriving DecidableEq

def wfQueueMessage (vk : List Nat → Bool) (x : QueueMessage) : Bool :=
  decide (x.id < 2 ^ 32) && wfTimestamp x.timestamp && wfQMI vk x.message

def wQueueMessage (x : QueueMessage) : List Nat :=
  wLE 4 x.id ++ wTimestamp x.timestamp ++ wQMI x.message

def rQueueMessage (vk : List Nat → Bool) (bs : List Nat) :
    Option (QueueMessage × List Nat) :=
  (rLE 4 bs).bind fun p =>
  (rTimestamp p.2).bind fun q =>
  (rQMI vk q.2).map fun r => (⟨p.1, q.1, r.1⟩, r.2)

/-- `Vec<(u32, u32)>`. -/
def wPairList (l : List (Nat × Nat)) : List Nat :=
  wLE 4 l.length ++ (l.map fun p => wLE 4 p.1 ++ wLE 4 p.2).flatten

def rPairListN : Nat → List Nat → Option (List (Nat × Nat) × List Nat)
  | 0, bs => some ([], bs)
  | n + 1, bs =>
    (rLE 4 bs).bind fun p =>
    (rLE 4 p.2).bind fun q =>
    (rPairListN n q.2).map fun r => ((p.1, q.1) :: r.1, r.2)

def rPairList (bs : List Nat) : Option (List (Nat × Nat) × List Nat) :=
  (rLE 4 bs).bind fun p => rPairListN p.1 p.2

def wfPairList (l : List (Nat × Nat)) : Bool :=
  decide (l.length < 2 ^ 32) &&
  l.all fun p => decide (p.1 < 2 ^ 32) && decide (p.2 < 2 ^ 32)

/-- `RequestMessage`. -/
inductive RequestMessage
  | File (l : List (Nat × Nat))
  | Queue (l : List (Nat × Nat))
  | EncKey (id : EncKeyId)
deriving DecidableEq

def wfRequestMessage (vk : List Nat → Bool) : RequestMessage → Bool
  | .File l => wfPairList l
  | .Queue l => wfPairList l
  | .EncKey id => wfEncKeyId vk id

def wRequestMessage : RequestMessage → List Nat
  | .File l => 0 :: wPairList l
  | .Queue l => 1 :: wPairList l
  | .EncKey id => 2 :: wEncKeyId id

def rRequestMessage (vk : List Nat → Bool) (bs : List Nat) :
    Option (RequestMessage × List Nat) :=
  (rU8 bs).bind fun p =>
  match p.1 with
  | 0 => (rPairList p.2).map fun q => (.File q.1, q.2)
  | 1 => (rPairList p.2).map fun q => (.Queue q.1, q.2)
  | 2 => (rEncKeyId vk p.2).map fun q => (.EncKey q.1, q.2)
  | _ => Option.none

/-- `SubmissionMessage { problem_id, file_id, file_size, enc_key }`. -/
structure SubmissionMessage where
  problem_id : Nat
  file_id : MacB
  file_size : Nat
  enc_key : EncKeyB
deriving DecidableEq

def wfSubmissionMessage (x : SubmissionMessage) : Bool :=
  decide (x.problem_id < 2 ^ 32) && wfMacB x.file_id &&
  decide (x.file_size < 2 ^ 32) && wfEncKeyB x.enc_key

def wSubmissionMessage (x : SubmissionMessage) : List Nat :=
  wLE 4 x.problem_id ++ wMacB x.file_id ++ wLE 4 x.file_size ++
    wEncKeyB x.enc_key

def rSubmissionMessage (bs : List Nat) :
    Option (SubmissionMessage × List Nat) :=
  (rLE 4 bs).bind fun p =>
  (rMacB p.2).bind fun q =>
  (rLE 4 q.2).bind fun r =>
  (rEncKeyB r.2).map fun s => (⟨p.1, q.1, r.1, s.1⟩, s.2)

/-- `QuestionMessage { text (u8 length), context }`. -/
structure QuestionMessage where
  text : StrB
  context : Option Nat
deriving DecidableEq

def wfQuestionMessage (x : QuestionMessage) : Bool :=
  wfStrU8 x.text &&
  (match x.context with
   | some n => decide (n < 2 ^ 32)
   | Option.none => true)

def wQuestionMessage (x : QuestionMessage) : List Nat :=
  wStrU8 x.text ++ wOptU32 x.context

def rQuestionMessage (bs : List Nat) : Option (QuestionMessage × List Nat) :=
  (rStrU8 bs).bind fun p =>
  (rOptU32 p.2).map fun q => (⟨p.1, q.1⟩, q.2)

/-- `FileMessage { hash, piece, data }`. -/
structure FileMessage where
  hash : MacB
  piece : Nat
  data : SizedEnc
deriving DecidableEq

def wfFileMessage (x : FileMessage) : Bool :=
  wfMacB x.hash && decide (x.piece < 2 ^ 32) &&
    wfSizedEnc FILE_CHUNK_SIZE x.data

def wFileMessage (x : FileMessage) : List Nat :=
  wMacB x.hash ++ wLE 4 x.piece ++ wSizedEnc x.data

def rFileMessage (bs : List Nat) : Option (FileMessage × List Nat) :=
  (rMacB bs).bind fun p =>
  (rLE 4 p.2).bind fun q =>
  (rSizedEnc FILE_CHUNK_SIZE q.2).map fun r => (⟨p.1, q.1, r.1⟩, r.2)

/-- `KeepAliveInner(Timestamp)`. -/
structure KeepAliveInner where
  t : TimestampB
deriving DecidableEq

/-- The signed payload of a `Merkle` handshake message. -/
structure MerkleData where
  contest_id : Nat
  timestamp : TimestampB
  kex : PubKexKey
  addr : PeerAddrB
  entity : EntityB
deriving DecidableEq

def wfMerkleData (x : MerkleData) : Bool :=
  decide (x.contest_id < 2 ^ 128) && wfTimestamp x.timestamp &&
  wfPubKexKey x.kex && wfPeerAddr x.addr

def wMerkleData (x : MerkleData) : List Nat :=
  wLE 16 x.contest_id ++ wTimestamp x.timestamp ++ wPubKexKey x.kex ++
    wObfPeerAddr x.addr ++ wEntity x.entity

def rMerkleData (bs : List Nat) : Option (MerkleData × List Nat) :=
  (rLE 16 bs).bind fun p =>
  (rTimestamp p.2).bind fun q =>
  (rPubKexKey q.2).bind fun r =>
  (rObfPeerAddr r.2).bind fun s =>
  (rEntity s.2).map fun t => (⟨p.1, q.1, r.1, s.1, t.1⟩, t.2)

/-- `Signed<T, W>`: the payload pair then a 64-byte signature. -/
structure Signed (T W : Type) where
  data : T × W
  signature : Sig64
deriving DecidableEq

/-- `Macced<T>`: the payload then a 32-byte mac. -/
structure Macced (T : Type) where
  data : T
  mac : MacB
deriving DecidableEq

/-- `NetMessage`. -/
inductive NetMessage
  | Merkle (s : Signed MerkleData PubSigKey)
  | KeepAlive (who : PubSigKey) (m : Macced KeepAliveInner)
deriving DecidableEq

def wfNetMessage (vk : List Nat → Bool) : NetMessage → Bool
  | .Merkle s =>
    wfMerkleData s.data.1 && wfPubSigKey vk s.data.2 && wfSig64 s.signature
  | .KeepAlive who m =>
    wfPubSigKey vk who && wfTimestamp m.data.t && wfMacB m.mac

def wNetMessage : NetMessage → List Nat
  | .Merkle s =>
    0 :: (wMerkleData s.data.1 ++ wPubSigKey s.data.2 ++ wSig64 s.signature)
  | .KeepAlive who m =>
    1 :: (wPubSigKey who ++ wTimestamp m.data.t ++ wMacB m.mac)

def rNetMessage (vk : List Nat → Bool) (bs : List Nat) :
    Option (NetMessage × List Nat) :=
  (rU8 bs).bind fun p =>
  match p.1 with
  | 0 =>
    (rMerkleData p.2).bind fun q =>
    (rPubSigKey vk q.2).bind fun r =>
    (rSig64 r.2).map fun s => (.Merkle ⟨(q.1, r.1), s.1⟩, s.2)
  | 1 =>
    (rPubSigKey vk p.2).bind fun q =>
    (rTimestamp q.2).bind fun r =>
    (rMacB r.2).map fun s => (.KeepAlive q.1 ⟨⟨r.1⟩, s.1⟩, s.2)
  | _ => Option.none

/-- The top-level `Message`. -/
inductive Message
  | Net (m : NetMessage)
  | Queue (m : Macced (Signed QueueMessage Unit))
  | File (m : Macced FileMessage)
  | EncKey (m : Macced EncKeyInfo)
  | Request (m : Macced RequestMessage)
  | Submission (m : Macced SubmissionMessage)
  | Question (m : Macced QuestionMessage)
deriving DecidableEq

def wfMessage (vk : List Nat → Bool) : Message → Bool
  | .Net m => wfNetMessage vk m
  | .Queue m =>
    wfQueueMessage vk m.data.data.1 && wfSig64 m.data.signature &&
      wfMacB m.mac
  | .File m => wfFileMessage m.data && wfMacB m.mac
  | .EncKey m => wfEncKeyInfo vk m.data && wfMacB m.mac
  | .Request m => wfRequestMessage vk m.data && wfMacB m.mac
  | .Submission m => wfSubmissionMessage m.data && wfMacB m.mac
  | .Question m => wfQuestionMessage m.data && wfMacB m.mac

def wMessage : Message → List Nat
  | .Net m => 0 :: wNetMessage m
  | .Queue m =>
    1 :: (wQueueMessage m.data.data.1 ++ wSig64 m.data.signature ++
      wMacB m.mac)
  | .File m => 2 :: (wFileMessage m.data ++ wMacB m.mac)
  | .EncKey m => 3 :: (wEncKeyInfo m.data ++ wMacB m.mac)
  | .Request m => 4 :: (wRequestMessage m.data ++ wMacB m.mac)
  | .Submission m => 5 :: (wSubmissionMessage m.data ++ wMacB m.mac)
  | .Question m => 6 :: (wQuestionMessage m.data ++ wMacB m.mac)

def rMessage (vk : List Nat → Bool) (bs : List Nat) :
    Option (Message × List Nat) :=
  (rU8 bs).bind fun p =>
  match p.1 with
  | 0 => (rNetMessage vk p.2).map fun q => (.Net q.1, q.2)
  | 1 =>
    (rQueueMessage vk p.2).bind fun q =>
    (rSig64 q.2).bind fun r =>
    (rMacB r.2).map fun s => (.Queue ⟨⟨(q.1, ()), r.1⟩, s.1⟩, s.2)
  | 2 =>
    (rFileMessage p.2).bind fun q =>
    (rMacB q.2).map fun r => (.File ⟨q.1, r.1⟩, r.2)
  | 3 =>
    (rEncKeyInfo vk p.2).bind fun q =>
    (rMacB q.2).map fun r => (.EncKey ⟨q.1, r.1⟩, r.2)
  | 4 =>
    (rRequestMessage vk p.2).bind fun q =>
    (rMacB q.2).map fun r => (.Request ⟨q.1, r.1⟩, r.2)
  | 5 =>
    (rSubmissionMessage p.2).bind fun q =>
    (rMacB q.2).map fun r => (.Submission ⟨q.1, r.1⟩, r.2)
  | 6 =>
    (rQuestionMessage p.2).bind fun q =>
    (rMacB q.2).map fun r => (.Question ⟨q.1, r.1⟩, r.2)
  | _ => Option.none

/-- `Message::write_to_vec`. -/
def encode (m : Message) : List Nat := wMessage m

/-- `Message::read_from_buffer` (trailing bytes are ignored). -/
def decode (vk : List Nat → Bool) (bs : List Nat) : Option Message :=
  (rMessage vk bs).map fun p => p.1

/-- Concrete validity stand-in for the witnesses: accept 32-byte keys. -/
def vk0 : List Nat → Bool := fun l => l.length == 32

end Wire


namespace Wire

/-- Every `SubScore` carried by the message lies in `0.0 ..= 1.0` (the
only condition the reader checks beyond the type's own invariants). -/
def scoresOkQMI : QueueMessageInner → Bool
  | .Evaluation x => inRange01 x.score.bits
  | _ => true

/-- Score-range side condition of the amended round-trip claim. -/
def scoresOkMessage : Message → Bool
  | .Queue m => scoresOkQMI m.data.data.1.message
  | _ => true

end Wire

namespace Wire

/-! Concrete values used by the codec claims: a 32-byte key, mac,
64-byte signature, and two closed messages (one carrying an
out-of-range score bit pattern, one fully well-formed). -/

def k32c : PubSigKey := ⟨List.replicate 32 1⟩

def mac32c : MacB := ⟨List.replicate 32 2⟩

def sig64c : Sig64 := ⟨List.replicate 64 3⟩

def subIdC : SubmissionId := ⟨k32c, 0, mac32c⟩

def evalIdC : EvaluationIdB := ⟨subIdC, k32c⟩

/-- A `QEvaluation` whose score bits encode the double `2.0`
(`0x4000000000000000`), which `NotNan<f64>` accepts but the
deserializer's `0f64..=1f64` check rejects. -/
def qEvalC : QEvaluationB := ⟨evalIdC, ⟨0x4000000000000000⟩, mac32c⟩

def qmC : QueueMessage := ⟨0, ⟨0, 0⟩, .Evaluation qEvalC⟩

def msgC : Message := .Queue ⟨⟨(qmC, ()), sig64c⟩, mac32c⟩

/-- A fully well-formed concrete message (a `Question` with text "hi"). -/
def msgQ : Message := .Question ⟨⟨⟨[104, 105]⟩, Option.none⟩, mac32c⟩

/-- A concrete full-size file chunk envelope. -/
def fmC : Macced FileMessage :=
  ⟨⟨mac32c, 0, ⟨List.replicate FILE_CHUNK_SIZE 7, List.replicate 12 9⟩⟩,
    mac32c⟩

end Wire

/-! ### Theorems -/

namespace Agg

/-! Majority correctness of the scan in `final_score`: the potential
`D st x` is `cnt + 1` when the candidate is `x` and `-cnt` otherwise; reading
`x` raises it by at least one, reading anything else lowers it by at most
one, so a strict majority forces the final candidate to be `x`. -/

/-- Potential function for the majority scan. -/
def bmD {α : Type} [DecidableEq α] (st : α × Nat) (x : α) : ℤ :=
  if st.1 = x then (st.2 : ℤ) + 1 else -(st.2 : ℤ)

/-- Occurrence count used in the majority argument. -/
def cntEq {α : Type} [DecidableEq α] (v : List α) (x : α) : Nat :=
  v.countP (fun s => decide (s = x))

theorem bmStep_D {α : Type} [DecidableEq α] (st : α × Nat) (s x : α) :
    bmD (bmStep st s) x ≥ bmD st x + (if s = x then 1 else -1) := by
  rcases st with ⟨m, c⟩
  unfold bmStep
  by_cases h1 : s = m
  · rw [if_pos h1]
    subst h1
    unfold bmD
    try dsimp only
    by_cases h2 : s = x
    · rw [if_pos h2, if_pos h2, if_pos h2]; omega
    · rw [if_neg h2, if_neg h2, if_neg h2]; omega
  · rw [if_neg h1]
    by_cases h2 : c = 0
    · subst h2
      rw [if_pos rfl]
      unfold bmD
      try dsimp only
      by_cases h3 : s = x
      · have h4 : ¬m = x := fun hmx => h1 (h3.trans hmx.symm)
        rw [if_pos h3, if_pos h3, if_neg h4]
        omega
      · rw [if_neg h3, if_neg h3]
        by_cases h5 : m = x
        · rw [if_pos h5]; omega
        · rw [if_neg h5]; omega
    · rw [if_neg h2]
      unfold bmD
      try dsimp only
      by_cases h5 : m = x
      · have h3 : ¬s = x := fun hsx => h1 (hsx.trans h5.symm)
        rw [if_pos h5, if_pos h5, if_neg h3]
        omega
      · rw [if_neg h5, if_neg h5]
        by_cases h3 : s = x
        · rw [if_pos h3]; omega
        · rw [if_neg h3]; omega

theorem bmFold_D {α : Type} [DecidableEq α] (v : List α) (st : α × Nat) (x : α) :
    bmD (v.foldl bmStep st) x ≥
      bmD st x + (cntEq v x : ℤ) - ((v.length : ℤ) - (cntEq v x : ℤ)) := by
  induction v generalizing st with
  | nil => simp [cntEq]
  | cons a v ih =>
    have h1 := bmStep_D st a x
    have h2 := ih (bmStep st a)
    rw [List.foldl_cons]
    have hcnt : cntEq (a :: v) x = cntEq v x + (if a = x then 1 else 0) := by
      unfold cntEq
      rw [List.countP_cons]
      by_cases hax : a = x <;> simp [hax]
    rw [hcnt, List.length_cons]
    by_cases hax : a = x
    · rw [if_pos hax] at *
      push_cast at *
      omega
    · rw [if_neg hax] at *
      push_cast at *
      omega

theorem bmFold_majority {α : Type} [DecidableEq α] (v : List α) (a₀ x : α)
    (hmaj : 2 * cntEq v x > v.length) :
    (v.foldl bmStep (a₀, 0)).1 = x := by
  have hD := bmFold_D v (a₀, 0) x
  have h0 : bmD (a₀, 0) x ≥ 0 := by
    unfold bmD; split <;> simp
  by_contra hne
  have : bmD (v.foldl bmStep (a₀, 0)) x ≤ 0 := by
    unfold bmD; rw [if_neg hne]; omega
  omega

/-- Counting the pair projection agrees with `countFinal`. -/
theorem count_finalPair (info : EvaluationInfo) (s : SubScore) (h : DetailHash) :
    cntEq (info.map finalPair) (some (s, h)) = countFinal info s h := by
  unfold cntEq countFinal
  rw [List.countP_map]
  refine List.countP_congr fun x _ => ?_
  rcases x with ⟨ev, st⟩
  cases st <;> simp [finalPair, Function.comp]

/-- Key fact about `final_score`: it yields `some s` exactly when some
(score, key) pair is shared by strictly more than half of all evaluators. -/
theorem final_score_iff (info : EvaluationInfo) (s : SubScore) :
    info.final_score = some s ↔
      ∃ h, 2 * countFinal info s h > info.length := by
  have hlen : (info.map finalPair).length = info.length := by simp
  constructor
  · intro hfs
    unfold EvaluationInfo.final_score at hfs
    split at hfs
    · next hcount =>
      rcases hmaj : (finalCandidate info).1 with _ | ⟨s', h⟩
      · rw [hmaj] at hfs; simp at hfs
      · rw [hmaj] at hfs
        simp only [Option.map_some'] at hfs
        injection hfs with hs
        cases hs
        refine ⟨h, ?_⟩
        rw [hmaj] at hcount
        have : cntEq (info.map finalPair) (some (s, h)) = countFinal info s h :=
          count_finalPair info s h
        unfold cntEq at this
        omega
    · exact absurd hfs (by simp)
  · rintro ⟨h, hmaj⟩
    have hcount : cntEq (info.map finalPair) (some (s, h)) = countFinal info s h :=
      count_finalPair info s h
    have hbm : (finalCandidate info).1 = some (s, h) := by
      unfold finalCandidate
      rw [bmFold_majority (info.map finalPair) Option.none (some (s, h))
        (by omega)]
    unfold EvaluationInfo.final_score
    rw [hbm]
    unfold cntEq at hcount
    rw [if_pos (by omega)]
    rfl

end Agg

namespace Agg

theorem stateProgress_refl (st : EvaluationState) : stateProgress st st := by
  cases st <;> simp [stateProgress]

theorem stateProgress_trans {a b c : EvaluationState}
    (h1 : stateProgress a b) (h2 : stateProgress b c) : stateProgress a c := by
  cases a <;> cases b <;> cases c <;> simp_all [stateProgress]

theorem applyOp_progress (kh : DetailHash → EvaluationId → DetailHash)
    (x : SingleEvaluationInfo) (op : AggOp) :
    stateProgress x.state (applyOp kh x op).state := by
  rcases x with ⟨ev, st⟩
  cases op with
  | ev e =>
    cases st <;>
      simp [applyOp, SingleEvaluationInfo.add_evaluation, stateProgress]
  | proof ep =>
    cases st with
    | provisional s h =>
      simp only [applyOp, SingleEvaluationInfo.add_evaluation_proof]
      split
      · simp [stateProgress]
      · simp [stateProgress]
    | none =>
      simp [applyOp, SingleEvaluationInfo.add_evaluation_proof, stateProgress]
    | final s h =>
      simp [applyOp, SingleEvaluationInfo.add_evaluation_proof, stateProgress]
    | failed =>
      simp [applyOp, SingleEvaluationInfo.add_evaluation_proof, stateProgress]

theorem runOps_progress (kh : DetailHash → EvaluationId → DetailHash)
    (x : SingleEvaluationInfo) (ops : List AggOp) :
    stateProgress x.state (runOps kh x ops).state := by
  induction ops generalizing x with
  | nil => exact stateProgress_refl _
  | cons op ops ih =>
    exact stateProgress_trans (applyOp_progress kh x op) (ih (applyOp kh x op))

theorem final_terminal {s : SubScore} {h : DetailHash} {st : EvaluationState}
    (hp : stateProgress (.final s h) st) : st = .final s h := by
  cases st <;> simp_all [stateProgress]

theorem failed_terminal {st : EvaluationState}
    (hp : stateProgress .failed st) : st = .failed := by
  cases st <;> simp_all [stateProgress]

/-- Claim C2: the per-evaluator aggregator state machine.
`add_evaluation` moves `None` to `Provisional(score, detail_hash)` and does
nothing in any other state; `add_evaluation_proof` moves
`Provisional(score, h)` to `Final(score, proof.detail_hash_key)` when the
keyed blake3 of the evaluation id under the proof's key equals `h` and to
`Failed` otherwise, doing nothing in any other state; and under any sequence
of the two operations a state only progresses: `None` only ever becomes
`Provisional`/`Final`/`Failed`, `Provisional` only ever becomes `Final` or
`Failed`, and `Final` and `Failed` are terminal. -/
theorem single_evaluation_state_machine
    (kh : DetailHash → EvaluationId → DetailHash) (x : SingleEvaluationInfo)
    (e : QEvaluation) (ep : QEvaluationProof) (ops : List AggOp)
    (s : SubScore) (hh : DetailHash) :
    (x.state = .none →
      (x.add_evaluation e).state = .provisional e.score e.detailhs_hash) ∧
    (x.state ≠ .none → x.add_evaluation e = x) ∧
    (x.state = .provisional s hh →
      (x.add_evaluation_proof kh ep).state =
        if kh ep.detailhs ep.evaluation_id = hh then .final s ep.detailhs
        else .failed) ∧
    ((∀ t k, x.state ≠ .provisional t k) → x.add_evaluation_proof kh ep = x) ∧
    stateProgress x.state (runOps kh x ops).state ∧
    (x.state = .final s hh → (runOps kh x ops).state = .final s hh) ∧
    (x.state = .failed → (runOps kh x ops).state = .failed) := by
  refine ⟨?_, ?_, ?_, ?_, runOps_progress kh x ops, ?_, ?_⟩
  · intro hst
    rcases x with ⟨ev, st⟩
    cases st <;> simp_all [SingleEvaluationInfo.add_evaluation]
  · intro hst
    rcases x with ⟨ev, st⟩
    cases st <;> simp_all [SingleEvaluationInfo.add_evaluation]
  · intro hst
    rcases x with ⟨ev, st⟩
    cases st <;> simp_all [SingleEvaluationInfo.add_evaluation_proof,
      QEvaluationProof.hash]
    by_cases hc : kh ep.detailhs ep.evaluation_id = hh
    · rw [if_pos hc, if_pos hc]
    · rw [if_neg hc, if_neg hc]
  · intro hst
    rcases x with ⟨ev, st⟩
    cases st <;> simp_all [SingleEvaluationInfo.add_evaluation_proof]
  · intro hst
    have := runOps_progress kh x ops
    rw [hst] at this
    exact final_terminal this
  · intro hst
    have := runOps_progress kh x ops
    rw [hst] at this
    exact failed_terminal this

/-- Witness for C2 at a concrete state and operation sequence. -/
theorem single_evaluation_state_machine_witness :
    (SingleEvaluationInfo.mk 1 .none).state = .none ∧
    ((SingleEvaluationInfo.mk 1 .none).add_evaluation
        ⟨⟨0, 1⟩, 1, 5⟩).state = .provisional 1 5 :=
  ⟨rfl, (single_evaluation_state_machine kh0 ⟨1, .none⟩ ⟨⟨0, 1⟩, 1, 5⟩
    ⟨⟨0, 1⟩, 7⟩ [] 1 5).1 rfl⟩

/-- Claim C1 counterexample: in the concrete run `info0` every evaluator has
received both its `Evaluation` and its `EvaluationProof`, strictly more than
half of the evaluators (2 of 3) ended `Final` with the same
`detail_hash_key` `7`, yet `score()` is `Failed`, not `Final`: the code's
majority is taken over `(score, detail_hash_key)` pairs, and the two
finalizers reported different scores. -/
theorem evaluation_key_majority_counterexample :
    2 * countFinalKey info0 7 > info0.length ∧
    EvaluationInfo.is_done info0 = true ∧
    EvaluationInfo.score info0 = .failed := by decide

/-- Claim C1 (amended): if strictly more than half of all evaluators (the
denominator includes `Failed` and non-final evaluators) end in `Final` state
with the same score **and** the same `detail_hash_key`, then `score()`
returns `Final` with that score; otherwise `final_score()` yields `None`. -/
theorem evaluation_pair_majority_score (info : EvaluationInfo) (s : SubScore) :
    ((∃ h, 2 * countFinal info s h > info.length) →
      EvaluationInfo.score info = .final s) ∧
    (EvaluationInfo.final_score info = Option.none ↔
      ∀ t h, 2 * countFinal info t h ≤ info.length) := by
  constructor
  · rintro ⟨h, hmaj⟩
    have hfs := (final_score_iff info s).2 ⟨h, hmaj⟩
    unfold EvaluationInfo.score
    rw [hfs]
  · constructor
    · intro hnone t h
      by_contra hgt
      push_neg at hgt
      have hfs := (final_score_iff info t).2 ⟨h, by omega⟩
      rw [hnone] at hfs
      exact Option.noConfusion hfs
    · intro hall
      rcases hfs : EvaluationInfo.final_score info with _ | t
      · rfl
      · rcases (final_score_iff info t).1 hfs with ⟨h, hmaj⟩
        have := hall t h
        omega

/-- Witness for the amended C1 at a concrete majority. -/
theorem evaluation_pair_majority_score_witness :
    EvaluationInfo.score
        [⟨1, .final 1 5⟩, ⟨2, .final 1 5⟩, ⟨3, .failed⟩] = .final 1 :=
  (evaluation_pair_majority_score
    [⟨1, .final 1 5⟩, ⟨2, .final 1 5⟩, ⟨3, .failed⟩] 1).1 ⟨5, by decide⟩

end Agg

namespace Ts

/-- Claim C3 counterexample: `now = 10^12 ns`; the timestamp exactly 20 s in
the future lies in the claimed closed window `[now − 40 s, now + 20 s]` but
`is_timestamp_valid` rejects it (the code compares strictly). -/
theorem timestamp_boundary_counterexample :
    1000000000000 - 40 * 1000000000 ≤ 1000000000000 + 20 * 1000000000 ∧
    1000000000000 + 20 * 1000000000 ≤ 1000000000000 + 20 * 1000000000 ∧
    is_timestamp_valid (1000000000000 + 20 * 1000000000) 1000000000000
      = false := by decide

/-- Claim C3 (amended): a received timestamp `t` is accepted iff it lies in
the **open** interval `(now − 40 s, now + 20 s)`: strictly less than 20 s in
the future and strictly less than 40 s in the past; timestamps exactly 20 s
ahead or 40 s behind are rejected, as are 20.001 s ahead and 40.001 s
behind. -/
theorem timestamp_open_window (t now : Nat) :
    is_timestamp_valid t now = true ↔
      now < t + 40 * 1000000000 ∧ t < now + 20 * 1000000000 := by
  unfold is_timestamp_valid
  split_ifs with h <;> simp <;> omega

/-- Witness for the amended C3: timestamps 19.999999999 s ahead and
39.999999999 s behind are accepted, the exact bounds are not. -/
theorem timestamp_open_window_witness :
    is_timestamp_valid (1000000000000 + 20 * 1000000000 - 1) 1000000000000
      = true ∧
    is_timestamp_valid (1000000000000 - 40 * 1000000000 + 1) 1000000000000
      = true :=
  ⟨(timestamp_open_window (1000000000000 + 20 * 1000000000 - 1)
      1000000000000).2 (by decide),
   (timestamp_open_window (1000000000000 - 40 * 1000000000 + 1)
      1000000000000).2 (by decide)⟩

end Ts

namespace Eval

/-- Claim C4: `run_sub` outcome classification.  With a successful setup:
success with capturable stdout is `OK(sub_output)`; an `OutOfFuel` trap is
`TLE`; `MemoryOutOfBounds` and `TableOutOfBounds` traps are `MLE`, as is a
trap-free host error whose root-cause message contains the grow-failure
string; any other trap is `RTE`; success with an un-unwrappable stdout pipe
is `MFO`, which `evaluate_on_test` scores as 0 instead of failing. -/
theorem run_sub_classification
    (o : RunOutcome) (h : Hasher) (s m : String) (c : Nat)
    (orc : RunOracle) (i : Nat) (h0 h1 h2 : Hasher) (tc : String) :
    (o.setup = Option.none → o.call = .ok () → o.stdoutPipe = some s →
      run_sub o h = .ok (.OK s, h ++ o.updates)) ∧
    (o.setup = Option.none → o.call = .error (.trap .outOfFuel) →
      run_sub o h = .ok (.TLE, h ++ o.updates)) ∧
    (o.setup = Option.none → o.call = .error (.trap .memoryOutOfBounds) →
      run_sub o h = .ok (.MLE, h ++ o.updates)) ∧
    (o.setup = Option.none → o.call = .error (.trap .tableOutOfBounds) →
      run_sub o h = .ok (.MLE, h ++ o.updates)) ∧
    (o.setup = Option.none → o.call = .error (.host m) →
      strContains m growMsg = true →
      run_sub o h = .ok (.MLE, h ++ o.updates)) ∧
    (o.setup = Option.none → o.call = .error (.trap (.otherTrap c)) →
      run_sub o h = .ok (.RTE, h ++ o.updates)) ∧
    (o.setup = Option.none → o.call = .ok () → o.stdoutPipe = Option.none →
      run_sub o h = .ok (.MFO, h ++ o.updates)) ∧
    (run_gen (orc.gen i) h0 = .ok (tc, h1) →
      run_sub (orc.sub i) h1 = .ok (.MFO, h2) →
      evaluate_on_test orc i h0 = .ok (.Score 0, h2)) := by
  refine ⟨?_, ?_, ?_, ?_, ?_, ?_, ?_, ?_⟩
  · intro hst hc hsp
    simp [run_sub, hst, hc, hsp]
  · intro hst hc
    simp [run_sub, hst, hc]
  · intro hst hc
    simp [run_sub, hst, hc]
  · intro hst hc
    simp [run_sub, hst, hc]
  · intro hst hc hgrow
    simp [run_sub, hst, hc, hgrow]
  · intro hst hc
    simp [run_sub, hst, hc]
  · intro hst hc hsp
    simp [run_sub, hst, hc, hsp]
  · intro hg hs
    simp [evaluate_on_test, hg, hs]

/-- Witness for C4 at a concrete successful run. -/
theorem run_sub_classification_witness :
    run_sub (okRun tcStr) [] = .ok (.OK tcStr, [] ++ (okRun tcStr).updates) :=
  (run_sub_classification (okRun tcStr) [] tcStr tcStr 0 oracle2 0 [] [] []
    tcStr).1 rfl rfl rfl

/-- Claim C5 counterexample: a scorer that prints `2` — a score outside
`[0, 1]` — does not make the evaluation fail: `evaluate_on_test` returns
`Score 2`.  The code parses with `NotNan::from_str` and performs no
finiteness or range check. -/
theorem scorer_range_counterexample :
    evaluate_on_test oracle2 0 [] = .ok (.Score 2, []) := by rfl

/-- Claim C5 (amended): for every test on which the submission produced OK
output, the scorer's trimmed stdout is parsed as a non-NaN float; if parsing
fails the whole evaluation returns an error (the test is not scored 0);
a successfully parsed score is accepted unchanged — no finiteness or
`[0, 1]` range check is performed. -/
theorem scorer_output_parse (orc : RunOracle) (i : Nat)
    (h h1 h2 h3 : Hasher) (tc out evout : String) (q : ℚ) :
    run_gen (orc.gen i) h = .ok (tc, h1) →
    run_sub (orc.sub i) h1 = .ok (.OK out, h2) →
    run_eval (orc.eval i) h2 = .ok (evout, h3) →
    (parseScore (trim evout) = some q →
      evaluate_on_test orc i h = .ok (.Score q, h3)) ∧
    (parseScore (trim evout) = Option.none →
      evaluate_on_test orc i h = .error parseMsg) := by
  intro hg hs he
  constructor <;> intro hp <;> simp [evaluate_on_test, hg, hs, he, hp]

/-- Witness for the amended C5: the scorer output `2` parses and is kept. -/
theorem scorer_output_parse_witness :
    evaluate_on_test oracle2 1 [] = .ok (.Score 2, []) :=
  (scorer_output_parse oracle2 1 [] [] [] [] tcStr tcStr twoStr 2
    rfl rfl rfl).1 (by rfl)

/-- Claim C6: when compilation succeeds and the testset evaluates to
verdicts `evs` with hasher trace `tr`, `evaluate_submission` returns the
pair of the maximum mapped score (non-score verdicts count 0) and the
finalized digest of the trace accumulated over all runs; the returned score
is the score of some verdict and bounds every verdict's score. -/
theorem evaluate_submission_result (fin : Hasher → Nat) (c : CompileOracle)
    (o : RunOracle) (n : Nat) (evs : List TestEval) (tr : Hasher) (m : ℚ) :
    c.submission_engine = Option.none → c.contest_engine = Option.none →
    c.gen_module = Option.none → c.eval_module = Option.none →
    c.sub_module = Option.none →
    evaluate_on_testset o n [] = .ok (evs, tr) →
    (evs.map scoreOf).max? = some m →
    evaluate_submission fin c o n = .ok (m, fin tr) ∧
    m ∈ evs.map scoreOf ∧ ∀ x ∈ evs.map scoreOf, x ≤ m := by
  intro h1 h2 h3 h4 h5 hts hmax
  refine ⟨?_, ?_, ?_⟩
  · simp [evaluate_submission, h1, h2, h3, h4, h5, hts, hmax]
  · exact List.max?_mem (fun a b => max_choice a b) hmax
  · intro x hx
    exact ((List.max?_le_iff (fun a b c => max_le_iff) hmax).1 le_rfl) x hx

/-- Witness for C6 on a one-test oracle scoring 2. -/
theorem evaluate_submission_result_witness :
    evaluate_submission (fun _ => 0) compOk oracle2 1 =
      .ok (2, (fun _ : Hasher => 0) []) :=
  (evaluate_submission_result (fun _ => 0) compOk oracle2 1 [.Score 2] [] 2
    rfl rfl rfl rfl rfl (by rfl) (by rfl)).1

/-- Claim C10: with `testset_length = 0` the aggregate `max()` over the
empty score iterator is `None`, so `evaluate_submission` always returns an
error (never a `(score, digest)` pair), whatever the modules and limits. -/
theorem evaluate_submission_empty_testset (fin : Hasher → Nat)
    (c : CompileOracle) (o : RunOracle) :
    ∃ e, evaluate_submission fin c o 0 = .error e := by
  rcases c with ⟨se, ce, ge, ee, sm⟩
  cases se with
  | some e => exact ⟨e, rfl⟩
  | none =>
    cases ce with
    | some e => exact ⟨e, rfl⟩
    | none =>
      cases ge with
      | some e => exact ⟨e, rfl⟩
      | none =>
        cases ee with
        | some e => exact ⟨e, rfl⟩
        | none =>
          cases sm with
          | some e => exact ⟨e, rfl⟩
          | none => exact ⟨maxErrMsg, rfl⟩

end Eval

namespace FStore

theorem lookup_cons {β : Type} (k : Nat) (v : β) (l : List (Nat × β))
    (a : Nat) :
    List.lookup a ((k, v) :: l) = if a = k then some v else List.lookup a l := by
  by_cases h : a = k
  · subst h; simp [List.lookup]
  · have hb : (a == k) = false := by simp [h]
    simp [List.lookup, hb, h]

theorem lookup_setFirst {β : Type} (k : Nat) (v : β) (l : List (Nat × β))
    (a : Nat) :
    (setFirst k v l).lookup a =
      if a = k then (if (l.lookup k).isSome then some v else Option.none)
      else l.lookup a := by
  induction l with
  | nil =>
    simp only [setFirst, List.lookup]
    split <;> simp
  | cons p ps ih =>
    rcases p with ⟨pk, pv⟩
    by_cases hpk : pk = k
    · subst hpk
      simp only [setFirst, beq_self_eq_true, if_pos]
      simp only [lookup_cons]
      by_cases hak : a = pk <;> simp [hak]
    · have hpkb : (pk == k) = false := by simp [hpk]
      simp only [setFirst, hpkb, Bool.false_eq_true, if_false]
      have hk2 : ¬k = pk := fun hh => hpk hh.symm
      simp only [lookup_cons, ih]
      by_cases hak : a = pk
      · subst hak
        simp [hpk, hk2]
      · by_cases hak2 : a = k
        · subst hak2
          simp only [if_neg hak]
        · simp [hak, hak2]

theorem lookup_removeKey {β : Type} (k : Nat) (l : List (Nat × β))
    (a : Nat) :
    (removeKey k l).lookup a = if a = k then Option.none else l.lookup a := by
  induction l with
  | nil =>
    simp only [removeKey, List.filter_nil, List.lookup]
    split <;> rfl
  | cons p ps ih =>
    rcases p with ⟨pk, pv⟩
    by_cases hpk : pk = k
    · subst hpk
      have hb : (pk == pk) = true := beq_self_eq_true pk
      simp only [removeKey, List.filter_cons, hb, Bool.not_true,
        Bool.false_eq_true, if_false] at *
      rw [ih]
      by_cases hak : a = pk <;> simp [hak, lookup_cons]
    · have hpkb : (pk == k) = false := by simp [hpk]
      simp only [removeKey, List.filter_cons, hpkb, Bool.not_false,
        if_true] at *
      simp only [lookup_cons, ih]
      by_cases hak : a = pk
      · subst hak
        simp [hpk]
      · simp [hak]

theorem cellSet_lookup (ff : List (FileHash × Option (List Nat)))
    (h : FileHash) (d : List Nat) (a : FileHash) :
    (cellSet ff h d).lookup a =
      if a = h then
        match ff.lookup h with
        | some (some e) => some (some e)
        | _ => some (some d)
      else ff.lookup a := by
  unfold cellSet
  cases hl : ff.lookup h with
  | none =>
    by_cases hah : a = h
    · subst hah; simp [List.lookup, hl]
    · have hab : (a == h) = false := by simp [hah]
      simp [List.lookup, hab, hah]
  | some c =>
    cases c with
    | none =>
      rw [lookup_setFirst]
      by_cases hah : a = h
      · subst hah; simp [hl]
      · simp [hah]
    | some e =>
      by_cases hah : a = h
      · subst hah; simp [hl]
      · simp [hah]

theorem DoneOk_cellSet (hash3 : List Nat → FileHash)
    (ff : List (FileHash × Option (List Nat))) (h : FileHash) (d : List Nat)
    (hOk : ∀ a e, ff.lookup a = some (some e) → hash3 e = a)
    (hd : hash3 d = h) :
    ∀ a e, (cellSet ff h d).lookup a = some (some e) → hash3 e = a := by
  intro a e hl
  rw [cellSet_lookup] at hl
  split at hl
  · next hah =>
    subst hah
    revert hl
    cases hm : ff.lookup a with
    | none =>
      intro hl
      injection hl with h1
      injection h1 with h2
      subst h2
      exact hd
    | some c =>
      cases c with
      | none =>
        intro hl
        injection hl with h1
        injection h1 with h2
        subst h2
        exact hd
      | some e0 =>
        intro hl
        injection hl with h1
        injection h1 with h2
        subst h2
        exact hOk a e0 hm
  · exact hOk a e hl

theorem cellSet_preserve (ff : List (FileHash × Option (List Nat)))
    (h₂ : FileHash) (d₂ : List Nat) (a : FileHash) (d : List Nat)
    (hl : ff.lookup a = some (some d)) :
    (cellSet ff h₂ d₂).lookup a = some (some d) := by
  rw [cellSet_lookup]
  split
  · next hah =>
    subst hah
    rw [hl]
  · exact hl

theorem add_new_full_files (st : FileStore) (h : FileHash) (size ek : Nat) :
    (st.add_new h size ek).full_files = st.full_files := by
  unfold FileStore.add_new
  cases st.file_parts.lookup h <;> rfl

theorem add_enc_chunk_full_files (hash3 : List Nat → FileHash)
    (st : FileStore) (h : FileHash) (i : Nat) (dec : Option (List Nat)) :
    ((st.add_enc_chunk hash3 h i dec).1).full_files = st.full_files ∨
    ∃ fp, st.file_parts.lookup h = some fp ∧
      (fp.add_enc_chunk i dec).is_full = true ∧
      hash3 (fp.add_enc_chunk i dec).data = h ∧
      ((st.add_enc_chunk hash3 h i dec).1).full_files =
        cellSet st.full_files h (fp.add_enc_chunk i dec).data := by
  unfold FileStore.add_enc_chunk
  cases hlp : st.file_parts.lookup h with
  | none => exact Or.inl rfl
  | some fp =>
    try dsimp only
    by_cases hful : (fp.add_enc_chunk i dec).is_full = true
    · rw [if_pos hful]
      by_cases hsh : hash3 (fp.add_enc_chunk i dec).data = h
      · rw [if_pos hsh]
        exact Or.inr ⟨fp, rfl, hful, hsh, rfl⟩
      · rw [if_neg hsh]
        exact Or.inl rfl
    · rw [if_neg hful]
      exact Or.inl rfl

theorem DoneOk_applyFOp (hash3 : List Nat → FileHash) (st : FileStore)
    (op : FOp) (hOk : DoneOk hash3 st) :
    DoneOk hash3 (applyFOp hash3 st op) := by
  cases op with
  | done data =>
    exact DoneOk_cellSet hash3 st.full_files (hash3 data) data hOk rfl
  | newPartial h size ek =>
    intro a e hl
    apply hOk a e
    rwa [show applyFOp hash3 st (FOp.newPartial h size ek)
        = st.add_new h size ek from rfl, add_new_full_files] at hl
  | chunk h i dec =>
    intro a e hl
    rw [show applyFOp hash3 st (FOp.chunk h i dec)
        = (st.add_enc_chunk hash3 h i dec).1 from rfl] at hl
    rcases add_enc_chunk_full_files hash3 st h i dec with heq | ⟨fp, _, _, hsh, heq⟩
    · rw [heq] at hl
      exact hOk a e hl
    · rw [heq] at hl
      exact DoneOk_cellSet hash3 st.full_files h _ hOk hsh a e hl

theorem full_preserve_applyFOp (hash3 : List Nat → FileHash) (st : FileStore)
    (op : FOp) (a : FileHash) (d : List Nat)
    (hl : st.full_files.lookup a = some (some d)) :
    (applyFOp hash3 st op).full_files.lookup a = some (some d) := by
  cases op with
  | done data => exact cellSet_preserve _ _ _ _ _ hl
  | newPartial h size ek =>
    rw [show applyFOp hash3 st (FOp.newPartial h size ek)
        = st.add_new h size ek from rfl, add_new_full_files]
    exact hl
  | chunk h i dec =>
    rw [show applyFOp hash3 st (FOp.chunk h i dec)
        = (st.add_enc_chunk hash3 h i dec).1 from rfl]
    rcases add_enc_chunk_full_files hash3 st h i dec with heq | ⟨fp, _, _, _, heq⟩
    · rw [heq]
      exact hl
    · rw [heq]
      exact cellSet_preserve _ _ _ _ _ hl

theorem DoneOk_runFOps (hash3 : List Nat → FileHash) (st : FileStore)
    (ops : List FOp) (hOk : DoneOk hash3 st) :
    DoneOk hash3 (runFOps hash3 st ops) := by
  induction ops generalizing st with
  | nil => exact hOk
  | cons op ops ih => exact ih _ (DoneOk_applyFOp hash3 st op hOk)

theorem full_preserve_runFOps (hash3 : List Nat → FileHash) (st : FileStore)
    (ops : List FOp) (a : FileHash) (d : List Nat)
    (hl : st.full_files.lookup a = some (some d)) :
    (runFOps hash3 st ops).full_files.lookup a = some (some d) := by
  induction ops generalizing st with
  | nil => exact hl
  | cons op ops ih => exact ih _ (full_preserve_applyFOp hash3 st op a d hl)

theorem count_true_iff_all (l : List Bool) :
    (l.count true = l.length) ↔ ∀ i < l.length, l.getD i false = true := by
  induction l with
  | nil => simp
  | cons b bs ih =>
    cases b
    · constructor
      · intro hc
        exfalso
        have hle := List.count_le_length (a := true) (l := bs)
        simp [List.count_cons] at hc
        omega
      · intro hall
        have h0 := hall 0 (by simp)
        simp at h0
    · constructor
      · intro hc i hi
        cases i with
        | zero => simp
        | succ j =>
          simp only [List.length_cons] at hi
          have hbs : bs.count true = bs.length := by
            simp [List.count_cons] at hc
            omega
          exact (ih.1 hbs) j (by omega)
      · intro hall
        have hbs : bs.count true = bs.length := by
          refine ih.2 fun i hi => ?_
          have := hall (i + 1) (by simp only [List.length_cons]; omega)
          simpa using this
        simp [List.count_cons, hbs]

end FStore

namespace FStore

/-- Claim C7: the file-store completion invariant.  In every store reachable
from `FileStore::new` each fully received entry's bytes hash (blake3,
abstracted as `hash3`) to exactly its `FileHash` key; a fully received
entry's bytes never change under any further operations; the full bitmap
means every chunk index is present; and `add_enc_chunk` promotes a partial
file only when the bitmap is full and the reassembled buffer hashes to the
key (returning `Some(true)`), discards the partial entry and returns the
error result `None` when the buffer is full but the hash mismatches, and
reports `Some(false)` without touching the full files otherwise. -/
theorem file_store_completion (hash3 : List Nat → FileHash) (ops : List FOp)
    (st : FileStore) (h : FileHash) (d : List Nat) (chunki : Nat)
    (dec : Option (List Nat)) (fp : FileParts) :
    DoneOk hash3 (runFOps hash3 FileStore.new ops) ∧
    (st.full_files.lookup h = some (some d) →
      (runFOps hash3 st ops).full_files.lookup h = some (some d)) ∧
    (fp.present.length = fp.nchunks →
      (fp.is_full = true ↔
        ∀ i < fp.nchunks, fp.present.getD i false = true)) ∧
    (st.file_parts.lookup h = some fp →
      ((fp.add_enc_chunk chunki dec).is_full = true →
        hash3 (fp.add_enc_chunk chunki dec).data = h →
        (st.add_enc_chunk hash3 h chunki dec).2 = some true ∧
        ∃ e, (st.add_enc_chunk hash3 h chunki dec).1.full_files.lookup h =
          some (some e)) ∧
      ((fp.add_enc_chunk chunki dec).is_full = true →
        hash3 (fp.add_enc_chunk chunki dec).data ≠ h →
        (st.add_enc_chunk hash3 h chunki dec).2 = Option.none ∧
        (st.add_enc_chunk hash3 h chunki dec).1.file_parts.lookup h =
          Option.none ∧
        (st.add_enc_chunk hash3 h chunki dec).1.full_files = st.full_files) ∧
      ((fp.add_enc_chunk chunki dec).is_full = false →
        (st.add_enc_chunk hash3 h chunki dec).2 = some false ∧
        (st.add_enc_chunk hash3 h chunki dec).1.full_files =
          st.full_files)) := by
  refine ⟨?_, ?_, ?_, ?_⟩
  · refine DoneOk_runFOps hash3 FileStore.new ops ?_
    intro a e hl
    simp [FileStore.new, List.lookup] at hl
  · intro hl
    exact full_preserve_runFOps hash3 st ops h d hl
  · intro hlen
    unfold FileParts.is_full
    rw [beq_iff_eq, ← hlen]
    constructor
    · intro hc
      exact (count_true_iff_all fp.present).1 hc.symm
    · intro hall
      exact ((count_true_iff_all fp.present).2 hall).symm
  · intro hlp
    refine ⟨?_, ?_, ?_⟩
    · intro hful hsh
      have hres : st.add_enc_chunk hash3 h chunki dec =
          ({ file_parts := removeKey h st.file_parts
             full_files := cellSet st.full_files h
               (fp.add_enc_chunk chunki dec).data }, some true) := by
        unfold FileStore.add_enc_chunk
        rw [hlp]
        try dsimp only
        rw [if_pos hful, if_pos hsh]
      rw [hres]
      refine ⟨rfl, ?_⟩
      try dsimp only
      rw [cellSet_lookup, if_pos rfl]
      cases hm : st.full_files.lookup h with
      | none => exact ⟨_, rfl⟩
      | some c =>
        cases c with
        | none => exact ⟨_, rfl⟩
        | some e0 => exact ⟨e0, rfl⟩
    · intro hful hsh
      have hres : st.add_enc_chunk hash3 h chunki dec =
          ({ st with file_parts := removeKey h st.file_parts },
            Option.none) := by
        unfold FileStore.add_enc_chunk
        rw [hlp]
        try dsimp only
        rw [if_pos hful, if_neg hsh]
      rw [hres]
      exact ⟨rfl, by rw [lookup_removeKey, if_pos rfl], rfl⟩
    · intro hful
      have hres : st.add_enc_chunk hash3 h chunki dec =
          ({ st with file_parts :=
              setFirst h (fp.add_enc_chunk chunki dec) st.file_parts },
            some false) := by
        unfold FileStore.add_enc_chunk
        rw [hlp]
        try dsimp only
        rw [if_neg (by simp [hful])]
      rw [hres]
      exact ⟨rfl, rfl⟩

/-- Witness for C7: a fully received entry survives a further operation. -/
theorem file_store_completion_witness :
    (runFOps hash3c doneStore [FOp.done [9]]).full_files.lookup 5 =
      some (some [2, 3]) :=
  (file_store_completion hash3c [FOp.done [9]] doneStore 5 [2, 3] 0
    Option.none (FileParts.new 0 0)).2.1 (by rfl)

end FStore

namespace Wire

theorem wLE_length (w n : Nat) : (wLE w n).length = w := by
  induction w generalizing n with
  | zero => rfl
  | succ w ih => simp [wLE, ih]

theorem rLE_w : ∀ (w n : Nat), n < 256 ^ w → ∀ rest,
    rLE w (wLE w n ++ rest) = some (n, rest) := by
  intro w
  induction w with
  | zero =>
    intro n h rest
    have hn : n = 0 := by simpa using h
    subst hn
    simp [wLE, rLE]
  | succ w ih =>
    intro n h rest
    have hlt : n / 256 < 256 ^ w := by
      rw [Nat.div_lt_iff_lt_mul (by omega)]
      calc n < 256 ^ (w + 1) := h
        _ = 256 ^ w * 256 := by rw [Nat.pow_succ]
    simp only [wLE, List.cons_append, rLE, List.append_eq,
      ih (n / 256) hlt rest, Option.map_some']
    have hmod : n % 256 + 256 * (n / 256) = n := by omega
    rw [hmod]

theorem rBytes_w (n : Nat) (l rest : List Nat) (h : l.length = n) :
    rBytes n (l ++ rest) = some (l, rest) := by
  subst h
  unfold rBytes
  rw [if_neg (by simp)]
  rw [List.take_left, List.drop_left]

theorem rBytesRev_w (n : Nat) (l rest : List Nat) (h : l.length = n) :
    rBytesRev n (l.reverse ++ rest) = some (l, rest) := by
  subst h
  unfold rBytesRev
  rw [if_neg (by simp)]
  have h1 : (l.reverse ++ rest).take l.length = l.reverse := by
    rw [← List.length_reverse l]
    exact List.take_left _ _
  have h2 : (l.reverse ++ rest).drop l.length = rest := by
    rw [← List.length_reverse l]
    exact List.drop_left _ _
  rw [h1, h2, List.reverse_reverse]

theorem rVecU8_w (l rest : List Nat) (h : l.length < 2 ^ 32) :
    rVecU8 (wVecU8 l ++ rest) = some (l, rest) := by
  unfold rVecU8 wVecU8
  rw [List.append_assoc, rLE_w 4 l.length (by norm_num; omega) (l ++ rest)]
  simp [Option.bind, rBytes_w l.length l rest rfl]

theorem rStrU8_w (s : StrB) (h : wfStrU8 s = true) (rest : List Nat) :
    rStrU8 (wStrU8 s ++ rest) = some (s, rest) := by
  have h' := h
  unfold wfStrU8 at h'
  simp only [Bool.and_eq_true, decide_eq_true_eq] at h'
  obtain ⟨⟨hu, hlen⟩, _⟩ := h'
  unfold rStrU8 wStrU8
  have hmod : s.bytes.length % 256 = s.bytes.length := Nat.mod_eq_of_lt (by omega)
  simp only [List.cons_append, rU8, Option.bind, hmod]
  rw [rBytes_w s.bytes.length s.bytes rest rfl]
  simp [hu]

theorem rOptU32_w (o : Option Nat)
    (h : (match o with | some n => decide (n < 2 ^ 32) | Option.none => true) = true)
    (rest : List Nat) :
    rOptU32 (wOptU32 o ++ rest) = some (o, rest) := by
  cases o with
  | none => simp [wOptU32, rOptU32, rU8, Option.bind]
  | some n =>
    simp only [decide_eq_true_eq] at h
    simp only [wOptU32, List.cons_append, rOptU32, rU8, Option.bind]
    rw [rLE_w 4 n (by norm_num; omega) rest]
    rfl

theorem obfMaskFrom_invol (l : List Nat) : ∀ i,
    obfMaskFrom i (obfMaskFrom i l) = l := by
  induction l with
  | nil => intro i; rfl
  | cons b rest ih =>
    intro i
    simp [obfMaskFrom, ih (i + 1), Nat.xor_assoc]

theorem obfMaskFrom_length (l : List Nat) : ∀ i,
    (obfMaskFrom i l).length = l.length := by
  induction l with
  | nil => intro i; rfl
  | cons b rest ih => intro i; simp [obfMaskFrom, ih (i + 1)]

theorem rTimestamp_w (t : TimestampB) (h : wfTimestamp t = true)
    (rest : List Nat) : rTimestamp (wTimestamp t ++ rest) = some (t, rest) := by
  unfold wfTimestamp at h
  simp only [Bool.and_eq_true, decide_eq_true_eq] at h
  obtain ⟨hs, hn⟩ := h
  unfold rTimestamp wTimestamp
  rw [List.append_assoc, rLE_w 8 t.secs (by norm_num; omega) _]
  simp only [Option.bind]
  rw [rLE_w 4 t.nanos (by norm_num; omega) rest]
  simp only [Option.map_some']
  have h1 : t.nanos / 1000000000 = 0 := Nat.div_eq_of_lt hn
  have h2 : t.nanos % 1000000000 = t.nanos := Nat.mod_eq_of_lt hn
  rw [h1, h2, Nat.add_zero]

theorem rEntity_w (e : EntityB) (rest : List Nat) :
    rEntity (wEntity e ++ rest) = some (e, rest) := by
  cases e <;> simp [wEntity, rEntity, rU8, Option.bind]

theorem rSubScore_w (s : SubScoreB) (hwf : wfSubScore s = true)
    (hr : inRange01 s.bits = true) (rest : List Nat) :
    rSubScore (wSubScore s ++ rest) = some (s, rest) := by
  unfold wfSubScore at hwf
  simp only [Bool.and_eq_true, decide_eq_true_eq] at hwf
  unfold rSubScore wSubScore
  rw [rLE_w 8 s.bits (by norm_num; omega) rest]
  simp [hr]

theorem rPubSigKey_w (vk : List Nat → Bool) (k : PubSigKey)
    (h : wfPubSigKey vk k = true) (rest : List Nat) :
    rPubSigKey vk (wPubSigKey k ++ rest) = some (k, rest) := by
  unfold wfPubSigKey bytesOk at h
  simp only [Bool.and_eq_true, beq_iff_eq] at h
  obtain ⟨⟨hlen, _⟩, hvk⟩ := h
  unfold rPubSigKey wPubSigKey
  rw [rBytesRev_w 32 k.bytes rest hlen]
  simp [hvk]

theorem rPubKexKey_w (k : PubKexKey) (h : wfPubKexKey k = true)
    (rest : List Nat) : rPubKexKey (wPubKexKey k ++ rest) = some (k, rest) := by
  unfold wfPubKexKey bytesOk at h
  simp only [Bool.and_eq_true, beq_iff_eq] at h
  unfold rPubKexKey wPubKexKey
  rw [rBytesRev_w 32 k.bytes rest h.1]
  rfl

theorem rSig64_w (s : Sig64) (h : wfSig64 s = true) (rest : List Nat) :
    rSig64 (wSig64 s ++ rest) = some (s, rest) := by
  unfold wfSig64 bytesOk at h
  simp only [Bool.and_eq_true, beq_iff_eq] at h
  unfold rSig64 wSig64
  rw [rBytesRev_w 64 s.bytes rest h.1]
  rfl

theorem rMacB_w (m : MacB) (h : wfMacB m = true) (rest : List Nat) :
    rMacB (wMacB m ++ rest) = some (m, rest) := by
  unfold wfMacB bytesOk at h
  simp only [Bool.and_eq_true, beq_iff_eq] at h
  unfold rMacB wMacB
  rw [rBytesRev_w 32 m.bytes rest h.1]
  rfl

theorem rEncKeyB_w (k : EncKeyB) (h : wfEncKeyB k = true) (rest : List Nat) :
    rEncKeyB (wEncKeyB k ++ rest) = some (k, rest) := by
  unfold wfEncKeyB bytesOk at h
  simp only [Bool.and_eq_true, beq_iff_eq] at h
  unfold rEncKeyB wEncKeyB
  rw [rBytesRev_w 32 k.bytes rest h.1]
  rfl

theorem rSizedEnc_w (N : Nat) (se : SizedEnc) (h : wfSizedEnc N se = true)
    (rest : List Nat) : rSizedEnc N (wSizedEnc se ++ rest) = some (se, rest) := by
  unfold wfSizedEnc bytesOk at h
  simp only [Bool.and_eq_true, beq_iff_eq] at h
  obtain ⟨⟨hd, _⟩, ⟨hn, _⟩⟩ := h
  unfold rSizedEnc wSizedEnc
  rw [List.append_assoc, rBytes_w N se.data _ hd]
  simp only [Option.bind]
  rw [rBytesRev_w 12 se.nonce rest hn]
  rfl

theorem rIpAddr_w (ip : IpAddrB) (h : wfIpAddr ip = true) (rest : List Nat) :
    rIpAddr (wIpAddr ip ++ rest) = some (ip, rest) := by
  cases ip with
  | v4 o =>
    unfold wfIpAddr bytesOk at h
    simp only [Bool.and_eq_true, beq_iff_eq] at h
    simp only [wIpAddr, List.cons_append, rIpAddr, rU8, Option.bind]
    rw [rBytes_w 4 o rest h.1]
    rfl
  | v6 o =>
    unfold wfIpAddr bytesOk at h
    simp only [Bool.and_eq_true, beq_iff_eq] at h
    simp only [wIpAddr, List.cons_append, rIpAddr, rU8, Option.bind]
    rw [rBytes_w 16 o rest h.1]
    rfl

theorem rPeerAddr_w (a : PeerAddrB) (h : wfPeerAddr a = true)
    (rest : List Nat) : rPeerAddr (wPeerAddr a ++ rest) = some (a, rest) := by
  unfold wfPeerAddr at h
  simp only [Bool.and_eq_true, decide_eq_true_eq] at h
  unfold rPeerAddr wPeerAddr
  rw [List.append_assoc, rIpAddr_w a.ip h.1 _]
  simp only [Option.bind]
  rw [rLE_w 2 a.port (by norm_num; omega) rest]
  rfl

theorem wPeerAddr_length (a : PeerAddrB) (h : wfPeerAddr a = true) :
    (wPeerAddr a).length ≤ 19 := by
  unfold wfPeerAddr at h
  simp only [Bool.and_eq_true, decide_eq_true_eq] at h
  obtain ⟨hip, _⟩ := h
  unfold wPeerAddr
  have hlen : (wIpAddr a.ip).length ≤ 17 := by
    cases hc : a.ip with
    | v4 o =>
      rw [hc] at hip
      unfold wfIpAddr bytesOk at hip
      simp only [Bool.and_eq_true, beq_iff_eq] at hip
      simp [wIpAddr, hip.1]
    | v6 o =>
      rw [hc] at hip
      unfold wfIpAddr bytesOk at hip
      simp only [Bool.and_eq_true, beq_iff_eq] at hip
      simp [wIpAddr, hip.1]
  simp only [List.length_append, wLE_length]
  omega

theorem rObfPeerAddr_w (a : PeerAddrB) (h : wfPeerAddr a = true)
    (rest : List Nat) :
    rObfPeerAddr (wObfPeerAddr a ++ rest) = some (a, rest) := by
  unfold rObfPeerAddr wObfPeerAddr
  rw [rVecU8_w (obfMask (wPeerAddr a)) rest (by
    unfold obfMask
    rw [obfMaskFrom_length]
    have := wPeerAddr_length a h
    omega)]
  simp only [Option.bind]
  unfold obfMask
  rw [obfMaskFrom_invol]
  have := rPeerAddr_w a h []
  rw [List.append_nil] at this
  rw [this]
  rfl

end Wire

namespace Wire

theorem keyIdDepth_pos (x : EncKeyId) : 1 ≤ keyIdDepth x := by
  cases x <;> simp [keyIdDepth]

theorem keyIdDepth_mem {c : EncKeyId} {l : List EncKeyId} (h : c ∈ l) :
    keyIdDepth c ≤ keyIdDepthL l := by
  induction l with
  | nil => cases h
  | cons x xs ih =>
    rcases List.mem_cons.1 h with rfl | hmem
    · simp [keyIdDepthL]
    · have := ih hmem
      simp [keyIdDepthL]
      omega

mutual

theorem keyIdDepth_le : ∀ x : EncKeyId, keyIdDepth x ≤ (wEncKeyId x).length
  | .CustomPublic n => by simp [keyIdDepth, wEncKeyId, wLE_length]
  | .IsEntity e => by cases e <;> simp [keyIdDepth, wEncKeyId, wEntity]
  | .IsClient k => by simp [keyIdDepth, wEncKeyId, wPubSigKey]
  | .ProblemSolved p => by simp [keyIdDepth, wEncKeyId, wLE_length]
  | .Or l => by
    have := keyIdDepthL_le l
    simp [keyIdDepth, wEncKeyId, wLE_length]
    omega
  | .And l => by
    have := keyIdDepthL_le l
    simp [keyIdDepth, wEncKeyId, wLE_length]
    omega

theorem keyIdDepthL_le : ∀ l : List EncKeyId,
    keyIdDepthL l ≤ (wEncKeyIdL l).length + 1
  | [] => by simp [keyIdDepthL, wEncKeyIdL]
  | x :: xs => by
    have h1 := keyIdDepth_le x
    have h2 := keyIdDepthL_le xs
    simp only [keyIdDepthL, wEncKeyIdL, List.length_append]
    omega

end

mutual

theorem rEncKeyIdF_w (vk : List Nat → Bool) :
    ∀ (x : EncKeyId) (fuel : Nat), wfEncKeyId vk x = true →
      keyIdDepth x ≤ fuel → ∀ rest,
      rEncKeyIdF vk fuel (wEncKeyId x ++ rest) = some (x, rest)
  | .CustomPublic n, fuel, hwf, hd, rest => by
    simp only [wfEncKeyId, decide_eq_true_eq] at hwf
    simp only [keyIdDepth] at hd
    obtain ⟨f, rfl⟩ : ∃ f, fuel = f + 1 := ⟨fuel - 1, by omega⟩
    simp only [wEncKeyId, List.cons_append, rEncKeyIdF, rU8, Option.bind]
    rw [rLE_w 4 n (by norm_num; omega) rest]
    rfl
  | .IsEntity e, fuel, hwf, hd, rest => by
    simp only [keyIdDepth] at hd
    obtain ⟨f, rfl⟩ : ∃ f, fuel = f + 1 := ⟨fuel - 1, by omega⟩
    simp only [wEncKeyId, List.cons_append, rEncKeyIdF, rU8, Option.bind]
    rw [rEntity_w e rest]
    rfl
  | .IsClient k, fuel, hwf, hd, rest => by
    simp only [wfEncKeyId] at hwf
    simp only [keyIdDepth] at hd
    obtain ⟨f, rfl⟩ : ∃ f, fuel = f + 1 := ⟨fuel - 1, by omega⟩
    simp only [wEncKeyId, List.cons_append, rEncKeyIdF, rU8, Option.bind]
    rw [rPubSigKey_w vk k hwf rest]
    rfl
  | .ProblemSolved p, fuel, hwf, hd, rest => by
    simp only [wfEncKeyId, decide_eq_true_eq] at hwf
    simp only [keyIdDepth] at hd
    obtain ⟨f, rfl⟩ : ∃ f, fuel = f + 1 := ⟨fuel - 1, by omega⟩
    simp only [wEncKeyId, List.cons_append, rEncKeyIdF, rU8, Option.bind]
    rw [rLE_w 4 p (by norm_num; omega) rest]
    rfl
  | .Or l, fuel, hwf, hd, rest => by
    simp only [wfEncKeyId, Bool.and_eq_true, decide_eq_true_eq] at hwf
    simp only [keyIdDepth] at hd
    obtain ⟨f, rfl⟩ : ∃ f, fuel = f + 1 := ⟨fuel - 1, by omega⟩
    simp only [wEncKeyId, List.cons_append, List.append_assoc, rEncKeyIdF,
      rU8, Option.bind]
    rw [rLE_w 4 l.length (by norm_num; omega) (wEncKeyIdL l ++ rest)]
    try dsimp only
    rw [rEncKeyIdLF_w vk l f hwf.2
      (fun c hc => le_trans (keyIdDepth_mem hc) (by omega)) rest]
    rfl
  | .And l, fuel, hwf, hd, rest => by
    simp only [wfEncKeyId, Bool.and_eq_true, decide_eq_true_eq] at hwf
    simp only [keyIdDepth] at hd
    obtain ⟨f, rfl⟩ : ∃ f, fuel = f + 1 := ⟨fuel - 1, by omega⟩
    simp only [wEncKeyId, List.cons_append, List.append_assoc, rEncKeyIdF,
      rU8, Option.bind]
    rw [rLE_w 4 l.length (by norm_num; omega) (wEncKeyIdL l ++ rest)]
    try dsimp only
    rw [rEncKeyIdLF_w vk l f hwf.2
      (fun c hc => le_trans (keyIdDepth_mem hc) (by omega)) rest]
    rfl

theorem rEncKeyIdLF_w (vk : List Nat → Bool) :
    ∀ (l : List EncKeyId) (fuel : Nat), wfEncKeyIdL vk l = true →
      (∀ c ∈ l, keyIdDepth c ≤ fuel) → ∀ rest,
      rEncKeyIdLF vk fuel l.length (wEncKeyIdL l ++ rest) = some (l, rest)
  | [], fuel, hwf, hd, rest => by
    simp [wEncKeyIdL, rEncKeyIdLF]
  | x :: xs, fuel, hwf, hd, rest => by
    simp only [wfEncKeyIdL, Bool.and_eq_true] at hwf
    simp only [wEncKeyIdL, List.length_cons, List.append_assoc, rEncKeyIdLF,
      Option.bind]
    rw [rEncKeyIdF_w vk x fuel hwf.1 (hd x (by simp)) (wEncKeyIdL xs ++ rest)]
    try dsimp only
    rw [rEncKeyIdLF_w vk xs fuel hwf.2 (fun c hc => hd c (by simp [hc])) rest]
    rfl

end

theorem rEncKeyId_w (vk : List Nat → Bool) (x : EncKeyId)
    (hwf : wfEncKeyId vk x = true) (rest : List Nat) :
    rEncKeyId vk (wEncKeyId x ++ rest) = some (x, rest) := by
  unfold rEncKeyId
  refine rEncKeyIdF_w vk x _ hwf ?_ rest
  have h1 := keyIdDepth_le x
  simp only [List.length_append]
  omega

end Wire

namespace Wire

theorem rU32_w (n : Nat) (h : n < 2 ^ 32) (rest : List Nat) :
    rLE 4 (wLE 4 n ++ rest) = some (n, rest) :=
  rLE_w 4 n (by norm_num; omega) rest

theorem rU128_w (n : Nat) (h : n < 2 ^ 128) (rest : List Nat) :
    rLE 16 (wLE 16 n ++ rest) = some (n, rest) :=
  rLE_w 16 n (by norm_num; omega) rest

theorem rEncKeyInfo_w (vk : List Nat → Bool) (x : EncKeyInfo)
    (hwf : wfEncKeyInfo vk x = true) (rest : List Nat) :
    rEncKeyInfo vk (wEncKeyInfo x ++ rest) = some (x, rest) := by
  simp only [wfEncKeyInfo, Bool.and_eq_true] at hwf
  simp only [wEncKeyInfo, List.append_assoc, rEncKeyInfo]
  rw [rEncKeyId_w vk x.id hwf.1]
  simp only [Option.some_bind]
  rw [rEncKeyB_w x.key hwf.2 rest]
  rfl

theorem rQFileDesc_w (vk : List Nat → Bool) (x : QFileDesc)
    (hwf : wfQFileDesc vk x = true) (rest : List Nat) :
    rQFileDesc vk (wQFileDesc x ++ rest) = some (x, rest) := by
  simp only [wfQFileDesc, Bool.and_eq_true, decide_eq_true_eq] at hwf
  obtain ⟨⟨⟨h1, h2⟩, h3⟩, h4⟩ := hwf
  simp only [wQFileDesc, List.append_assoc, rQFileDesc]
  rw [rMacB_w x.hash h1]
  simp only [Option.some_bind]
  rw [rU32_w x.size h2]
  simp only [Option.some_bind]
  rw [rEncKeyId_w vk x.key_encrypting_key h3]
  simp only [Option.some_bind]
  rw [rSizedEnc_w 32 x.enc_encrypting_key h4 rest]
  rfl

theorem rSubmissionId_w (vk : List Nat → Bool) (x : SubmissionId)
    (hwf : wfSubmissionId vk x = true) (rest : List Nat) :
    rSubmissionId vk (wSubmissionId x ++ rest) = some (x, rest) := by
  simp only [wfSubmissionId, Bool.and_eq_true, decide_eq_true_eq] at hwf
  obtain ⟨⟨h1, h2⟩, h3⟩ := hwf
  simp only [wSubmissionId, List.append_assoc, rSubmissionId]
  rw [rPubSigKey_w vk x.submitter h1]
  simp only [Option.some_bind]
  rw [rU32_w x.problem_id h2]
  simp only [Option.some_bind]
  rw [rMacB_w x.file_id h3 rest]
  rfl

theorem rEvaluationId_w (vk : List Nat → Bool) (x : EvaluationIdB)
    (hwf : wfEvaluationId vk x = true) (rest : List Nat) :
    rEvaluationId vk (wEvaluationId x ++ rest) = some (x, rest) := by
  simp only [wfEvaluationId, Bool.and_eq_true] at hwf
  simp only [wEvaluationId, List.append_assoc, rEvaluationId]
  rw [rSubmissionId_w vk x.submission_id hwf.1]
  simp only [Option.some_bind]
  rw [rPubSigKey_w vk x.evaluator hwf.2 rest]
  rfl

theorem rQEvaluation_w (vk : List Nat → Bool) (x : QEvaluationB)
    (hwf : wfQEvaluation vk x = true) (hr : inRange01 x.score.bits = true)
    (rest : List Nat) :
    rQEvaluation vk (wQEvaluation x ++ rest) = some (x, rest) := by
  simp only [wfQEvaluation, Bool.and_eq_true] at hwf
  obtain ⟨⟨h1, h2⟩, h3⟩ := hwf
  simp only [wQEvaluation, List.append_assoc, rQEvaluation]
  rw [rEvaluationId_w vk x.evaluation_id h1]
  simp only [Option.some_bind]
  rw [rSubScore_w x.score h2 hr]
  simp only [Option.some_bind]
  rw [rMacB_w x.detailhs_hash h3 rest]
  rfl

theorem rQEvaluationProof_w (vk : List Nat → Bool) (x : QEvaluationProofB)
    (hwf : wfQEvaluationProof vk x = true) (rest : List Nat) :
    rQEvaluationProof vk (wQEvaluationProof x ++ rest) = some (x, rest) := by
  simp only [wfQEvaluationProof, Bool.and_eq_true] at hwf
  simp only [wQEvaluationProof, List.append_assoc, rQEvaluationProof]
  rw [rEvaluationId_w vk x.evaluation_id hwf.1]
  simp only [Option.some_bind]
  rw [rMacB_w x.detailhs hwf.2 rest]
  rfl

theorem rPSKListN_w (vk : List Nat → Bool) (l : List PubSigKey)
    (hwf : l.all (wfPubSigKey vk) = true) (rest : List Nat) :
    rPSKListN vk l.length ((l.map wPubSigKey).flatten ++ rest) =
      some (l, rest) := by
  induction l with
  | nil => simp [rPSKListN]
  | cons k ks ih =>
    simp only [List.all_cons, Bool.and_eq_true] at hwf
    simp only [List.map_cons, List.flatten_cons, List.length_cons,
      List.append_assoc, rPSKListN]
    rw [rPubSigKey_w vk k hwf.1]
    simp only [Option.some_bind]
    rw [ih hwf.2]
    rfl

theorem rPSKList_w (vk : List Nat → Bool) (l : List PubSigKey)
    (hlen : l.length < 2 ^ 32) (hwf : l.all (wfPubSigKey vk) = true)
    (rest : List Nat) :
    rPSKList vk (wPSKList l ++ rest) = some (l, rest) := by
  simp only [wPSKList, List.append_assoc, rPSKList]
  rw [rU32_w l.length hlen]
  simp only [Option.some_bind]
  exact rPSKListN_w vk l hwf rest

theorem rQEvaluationRequest_w (vk : List Nat → Bool) (x : QEvaluationRequest)
    (hwf : wfQEvaluationRequest vk x = true) (rest : List Nat) :
    rQEvaluationRequest vk (wQEvaluationRequest x ++ rest) = some (x, rest) := by
  simp only [wfQEvaluationRequest, Bool.and_eq_true, decide_eq_true_eq] at hwf
  obtain ⟨⟨h1, h2⟩, h3⟩ := hwf
  simp only [wQEvaluationRequest, List.append_assoc, rQEvaluationRequest]
  rw [rSubmissionId_w vk x.submission_id h1]
  simp only [Option.some_bind]
  rw [rPSKList_w vk x.evaluators h2 h3 rest]
  rfl

theorem rQSubmission_w (vk : List Nat → Bool) (x : QSubmission)
    (hwf : wfQSubmission vk x = true) (rest : List Nat) :
    rQSubmission vk (wQSubmission x ++ rest) = some (x, rest) := by
  simp only [wfQSubmission, Bool.and_eq_true, decide_eq_true_eq] at hwf
  obtain ⟨⟨h1, h2⟩, h3⟩ := hwf
  simp only [wQSubmission, List.append_assoc, rQSubmission]
  rw [rPubSigKey_w vk x.submitter h1]
  simp only [Option.some_bind]
  rw [rU32_w x.problem_id h2]
  simp only [Option.some_bind]
  rw [rQFileDesc_w vk x.file_desc h3 rest]
  rfl

theorem rQProblemDesc_w (vk : List Nat → Bool) (x : QProblemDesc)
    (hwf : wfQProblemDesc vk x = true) (rest : List Nat) :
    rQProblemDesc vk (wQProblemDesc x ++ rest) = some (x, rest) := by
  simp only [wfQProblemDesc, Bool.and_eq_true, decide_eq_true_eq] at hwf
  obtain ⟨⟨⟨⟨h1, h2⟩, h3⟩, h4⟩, h5⟩ := hwf
  simp only [wQProblemDesc, List.append_assoc, rQProblemDesc]
  rw [rU32_w x.id h1]
  simp only [Option.some_bind]
  rw [rQFileDesc_w vk x.statement h2]
  simp only [Option.some_bind]
  rw [rQFileDesc_w vk x.generator_file h3]
  simp only [Option.some_bind]
  rw [rQFileDesc_w vk x.scorer_file h4]
  simp only [Option.some_bind]
  rw [rU32_w x.n_testcases h5 rest]
  rfl

theorem rQAnnouncement_w (x : QAnnouncement)
    (hwf : wfQAnnouncement x = true) (rest : List Nat) :
    rQAnnouncement (wQAnnouncement x ++ rest) = some (x, rest) := by
  simp only [wfQAnnouncement, Bool.and_eq_true] at hwf
  simp only [wQAnnouncement, List.append_assoc, rQAnnouncement]
  rw [rStrU8_w x.text hwf.1]
  simp only [Option.some_bind]
  rw [rOptU32_w x.context hwf.2 rest]
  rfl

theorem rQPeerInfo_w (vk : List Nat → Bool) (x : QPeerInfo)
    (hwf : wfQPeerInfo vk x = true) (rest : List Nat) :
    rQPeerInfo vk (wQPeerInfo x ++ rest) = some (x, rest) := by
  simp only [wfQPeerInfo, Bool.and_eq_true] at hwf
  simp only [wQPeerInfo, List.append_assoc, rQPeerInfo]
  rw [rPubSigKey_w vk x.psk hwf.1]
  simp only [Option.some_bind]
  rw [rObfPeerAddr_w x.addr hwf.2]
  simp only [Option.some_bind]
  rw [rEntity_w x.entity rest]
  rfl

theorem rQMI_w (vk : List Nat → Bool) (x : QueueMessageInner)
    (hwf : wfQMI vk x = true) (hr : scoresOkQMI x = true) (rest : List Nat) :
    rQMI vk (wQMI x ++ rest) = some (x, rest) := by
  cases x with
  | Submission y =>
    simp only [wfQMI] at hwf
    simp only [wQMI, List.cons_append, rQMI, rU8, Option.bind]
    rw [rQSubmission_w vk y hwf rest]
    rfl
  | EvaluationRequest y =>
    simp only [wfQMI] at hwf
    simp only [wQMI, List.cons_append, rQMI, rU8, Option.bind]
    rw [rQEvaluationRequest_w vk y hwf rest]
    rfl
  | Evaluation y =>
    simp only [wfQMI] at hwf
    simp only [scoresOkQMI] at hr
    simp only [wQMI, List.cons_append, rQMI, rU8, Option.bind]
    rw [rQEvaluation_w vk y hwf hr rest]
    rfl
  | EvaluationProof y =>
    simp only [wfQMI] at hwf
    simp only [wQMI, List.cons_append, rQMI, rU8, Option.bind]
    rw [rQEvaluationProof_w vk y hwf rest]
    rfl
  | ProblemDesc y =>
    simp only [wfQMI] at hwf
    simp only [wQMI, List.cons_append, rQMI, rU8, Option.bind]
    rw [rQProblemDesc_w vk y hwf rest]
    rfl
  | Announcement y =>
    simp only [wfQMI] at hwf
    simp only [wQMI, List.cons_append, rQMI, rU8, Option.bind]
    rw [rQAnnouncement_w y hwf rest]
    rfl
  | PublicKey y =>
    simp only [wfQMI] at hwf
    simp only [wQMI, List.cons_append, rQMI, rU8, Option.bind]
    rw [rEncKeyInfo_w vk y hwf rest]
    rfl
  | PeerInfo y =>
    simp only [wfQMI] at hwf
    simp only [wQMI, List.cons_append, rQMI, rU8, Option.bind]
    rw [rQPeerInfo_w vk y hwf rest]
    rfl

theorem rQueueMessage_w (vk : List Nat → Bool) (x : QueueMessage)
    (hwf : wfQueueMessage vk x = true)
    (hr : scoresOkQMI x.message = true) (rest : List Nat) :
    rQueueMessage vk (wQueueMessage x ++ rest) = some (x, rest) := by
  simp only [wfQueueMessage, Bool.and_eq_true, decide_eq_true_eq] at hwf
  obtain ⟨⟨h1, h2⟩, h3⟩ := hwf
  simp only [wQueueMessage, List.append_assoc, rQueueMessage]
  rw [rU32_w x.id h1]
  simp only [Option.some_bind]
  rw [rTimestamp_w x.timestamp h2]
  simp only [Option.some_bind]
  rw [rQMI_w vk x.message h3 hr rest]
  rfl

end Wire

namespace Wire

theorem rPairListN_w (l : List (Nat × Nat))
    (hwf : (l.all fun p => decide (p.1 < 2 ^ 32) && decide (p.2 < 2 ^ 32)) = true)
    (rest : List Nat) :
    rPairListN l.length
      ((l.map fun p => wLE 4 p.1 ++ wLE 4 p.2).flatten ++ rest) =
      some (l, rest) := by
  induction l with
  | nil => simp [rPairListN]
  | cons p ps ih =>
    simp only [List.all_cons, Bool.and_eq_true, decide_eq_true_eq] at hwf
    obtain ⟨⟨hp1, hp2⟩, hps⟩ := hwf
    simp only [List.map_cons, List.flatten_cons, List.length_cons,
      List.append_assoc, rPairListN]
    rw [rU32_w p.1 hp1]
    simp only [Option.some_bind]
    rw [rU32_w p.2 hp2]
    simp only [Option.some_bind]
    rw [ih hps]
    rfl

theorem rPairList_w (l : List (Nat × Nat)) (hwf : wfPairList l = true)
    (rest : List Nat) : rPairList (wPairList l ++ rest) = some (l, rest) := by
  simp only [wfPairList, Bool.and_eq_true, decide_eq_true_eq] at hwf
  simp only [wPairList, List.append_assoc, rPairList]
  rw [rU32_w l.length hwf.1]
  simp only [Option.some_bind]
  exact rPairListN_w l hwf.2 rest

theorem rRequestMessage_w (vk : List Nat → Bool) (x : RequestMessage)
    (hwf : wfRequestMessage vk x = true) (rest : List Nat) :
    rRequestMessage vk (wRequestMessage x ++ rest) = some (x, rest) := by
  cases x with
  | File l =>
    simp only [wfRequestMessage] at hwf
    simp only [wRequestMessage, List.cons_append, rRequestMessage, rU8,
      Option.bind]
    rw [rPairList_w l hwf rest]
    rfl
  | Queue l =>
    simp only [wfRequestMessage] at hwf
    simp only [wRequestMessage, List.cons_append, rRequestMessage, rU8,
      Option.bind]
    rw [rPairList_w l hwf rest]
    rfl
  | EncKey id =>
    simp only [wfRequestMessage] at hwf
    simp only [wRequestMessage, List.cons_append, rRequestMessage, rU8,
      Option.bind]
    rw [rEncKeyId_w vk id hwf rest]
    rfl

theorem rSubmissionMessage_w (x : SubmissionMessage)
    (hwf : wfSubmissionMessage x = true) (rest : List Nat) :
    rSubmissionMessage (wSubmissionMessage x ++ rest) = some (x, rest) := by
  simp only [wfSubmissionMessage, Bool.and_eq_true, decide_eq_true_eq] at hwf
  obtain ⟨⟨⟨h1, h2⟩, h3⟩, h4⟩ := hwf
  simp only [wSubmissionMessage, List.append_assoc, rSubmissionMessage]
  rw [rU32_w x.problem_id h1]
  simp only [Option.some_bind]
  rw [rMacB_w x.file_id h2]
  simp only [Option.some_bind]
  rw [rU32_w x.file_size h3]
  simp only [Option.some_bind]
  rw [rEncKeyB_w x.enc_key h4 rest]
  rfl

theorem rQuestionMessage_w (x : QuestionMessage)
    (hwf : wfQuestionMessage x = true) (rest : List Nat) :
    rQuestionMessage (wQuestionMessage x ++ rest) = some (x, rest) := by
  simp only [wfQuestionMessage, Bool.and_eq_true] at hwf
  simp only [wQuestionMessage, List.append_assoc, rQuestionMessage]
  rw [rStrU8_w x.text hwf.1]
  simp only [Option.some_bind]
  rw [rOptU32_w x.context hwf.2 rest]
  rfl

theorem rFileMessage_w (x : FileMessage) (hwf : wfFileMessage x = true)
    (rest : List Nat) : rFileMessage (wFileMessage x ++ rest) = some (x, rest) := by
  simp only [wfFileMessage, Bool.and_eq_true, decide_eq_true_eq] at hwf
  obtain ⟨⟨h1, h2⟩, h3⟩ := hwf
  simp only [wFileMessage, List.append_assoc, rFileMessage]
  rw [rMacB_w x.hash h1]
  simp only [Option.some_bind]
  rw [rU32_w x.piece h2]
  simp only [Option.some_bind]
  rw [rSizedEnc_w FILE_CHUNK_SIZE x.data h3 rest]
  rfl

theorem rMerkleData_w (x : MerkleData) (hwf : wfMerkleData x = true)
    (rest : List Nat) : rMerkleData (wMerkleData x ++ rest) = some (x, rest) := by
  simp only [wfMerkleData, Bool.and_eq_true, decide_eq_true_eq] at hwf
  obtain ⟨⟨⟨h1, h2⟩, h3⟩, h4⟩ := hwf
  simp only [wMerkleData, List.append_assoc, rMerkleData]
  rw [rU128_w x.contest_id h1]
  simp only [Option.some_bind]
  rw [rTimestamp_w x.timestamp h2]
  simp only [Option.some_bind]
  rw [rPubKexKey_w x.kex h3]
  simp only [Option.some_bind]
  rw [rObfPeerAddr_w x.addr h4]
  simp only [Option.some_bind]
  rw [rEntity_w x.entity rest]
  rfl

theorem rNetMessage_w (vk : List Nat → Bool) (x : NetMessage)
    (hwf : wfNetMessage vk x = true) (rest : List Nat) :
    rNetMessage vk (wNetMessage x ++ rest) = some (x, rest) := by
  cases x with
  | Merkle s =>
    simp only [wfNetMessage, Bool.and_eq_true] at hwf
    obtain ⟨⟨h1, h2⟩, h3⟩ := hwf
    simp only [wNetMessage, List.cons_append, List.append_assoc, rNetMessage,
      rU8, Option.bind]
    rw [rMerkleData_w s.data.1 h1]
    simp only [Option.some_bind]
    rw [rPubSigKey_w vk s.data.2 h2]
    simp only [Option.some_bind]
    rw [rSig64_w s.signature h3 rest]
    rfl
  | KeepAlive who m =>
    simp only [wfNetMessage, Bool.and_eq_true] at hwf
    obtain ⟨⟨h1, h2⟩, h3⟩ := hwf
    simp only [wNetMessage, List.cons_append, List.append_assoc, rNetMessage,
      rU8, Option.bind]
    rw [rPubSigKey_w vk who h1]
    simp only [Option.some_bind]
    rw [rTimestamp_w m.data.t h2]
    simp only [Option.some_bind]
    rw [rMacB_w m.mac h3 rest]
    rfl

theorem rMessage_w (vk : List Nat → Bool) (m : Message)
    (hwf : wfMessage vk m = true) (hr : scoresOkMessage m = true)
    (rest : List Nat) : rMessage vk (wMessage m ++ rest) = some (m, rest) := by
  cases m with
  | Net x =>
    simp only [wfMessage] at hwf
    simp only [wMessage, List.cons_append, rMessage, rU8, Option.bind]
    rw [rNetMessage_w vk x hwf rest]
    rfl
  | Queue x =>
    simp only [wfMessage, Bool.and_eq_true] at hwf
    obtain ⟨⟨h1, h2⟩, h3⟩ := hwf
    simp only [scoresOkMessage] at hr
    simp only [wMessage, List.cons_append, List.append_assoc, rMessage, rU8,
      Option.bind]
    rw [rQueueMessage_w vk x.data.data.1 h1 hr]
    simp only [Option.some_bind]
    rw [rSig64_w x.data.signature h2]
    simp only [Option.some_bind]
    rw [rMacB_w x.mac h3 rest]
    rfl
  | File x =>
    simp only [wfMessage, Bool.and_eq_true] at hwf
    simp only [wMessage, List.cons_append, List.append_assoc, rMessage, rU8,
      Option.bind]
    rw [rFileMessage_w x.data hwf.1]
    simp only [Option.some_bind]
    rw [rMacB_w x.mac hwf.2 rest]
    rfl
  | EncKey x =>
    simp only [wfMessage, Bool.and_eq_true] at hwf
    simp only [wMessage, List.cons_append, List.append_assoc, rMessage, rU8,
      Option.bind]
    rw [rEncKeyInfo_w vk x.data hwf.1]
    simp only [Option.some_bind]
    rw [rMacB_w x.mac hwf.2 rest]
    rfl
  | Request x =>
    simp only [wfMessage, Bool.and_eq_true] at hwf
    simp only [wMessage, List.cons_append, List.append_assoc, rMessage, rU8,
      Option.bind]
    rw [rRequestMessage_w vk x.data hwf.1]
    simp only [Option.some_bind]
    rw [rMacB_w x.mac hwf.2 rest]
    rfl
  | Submission x =>
    simp only [wfMessage, Bool.and_eq_true] at hwf
    simp only [wMessage, List.cons_append, List.append_assoc, rMessage, rU8,
      Option.bind]
    rw [rSubmissionMessage_w x.data hwf.1]
    simp only [Option.some_bind]
    rw [rMacB_w x.mac hwf.2 rest]
    rfl
  | Question x =>
    simp only [wfMessage, Bool.and_eq_true] at hwf
    simp only [wMessage, List.cons_append, List.append_assoc, rMessage, rU8,
      Option.bind]
    rw [rQuestionMessage_w x.data hwf.1]
    simp only [Option.some_bind]
    rw [rMacB_w x.mac hwf.2 rest]
    rfl

end Wire

namespace Wire

set_option maxRecDepth 100000 in
/-- **C8** (counterexample): the round trip is not universal.  The
well-formed message `msgC` carries a `QEvaluation` whose score bits
encode the double `2.0`; `NotNan<f64>` (and hence serialization) accepts
it, but the deserializer's `0f64..=1f64` range check rejects it, so
decoding the encoding yields `None`, not the original message. -/
theorem message_roundtrip_counterexample :
    wfMessage vk0 msgC = true ∧ decode vk0 (encode msgC) = Option.none := by
  constructor
  · decide
  · decide

/-- **C8** (amended): for every well-formed `Message` (correct byte-array
lengths, valid keys, UTF-8 strings, fields within their integer bounds)
all of whose carried `SubScore`s lie within `0.0 ..= 1.0`, deserializing
the little-endian serialization yields the message again:
`decode (encode m) = some m`. -/
theorem message_roundtrip (vk : List Nat → Bool) (m : Message)
    (h1 : wfMessage vk m = true) (h2 : scoresOkMessage m = true) :
    decode vk (encode m) = some m := by
  have h := rMessage_w vk m h1 h2 []
  rw [List.append_nil] at h
  simp only [decode, encode, h, Option.map]

set_option maxRecDepth 100000 in
/-- Witness for the amended round trip at the concrete message `msgQ`. -/
theorem message_roundtrip_witness :
    wfMessage vk0 msgQ = true ∧ scoresOkMessage msgQ = true ∧
      decode vk0 (encode msgQ) = some msgQ :=
  ⟨by decide, by decide, message_roundtrip vk0 msgQ (by decide) (by decide)⟩

/-- **C9**: `FILE_CHUNK_SIZE = MAX_MESSAGE_SIZE - 81` with
`MAX_MESSAGE_SIZE = 1232`, and the serialized `Message::File` envelope
of every well-formed file message (mac, 32-byte hash, u32 piece index,
and a `SizedEncrypted` chunk of exactly `FILE_CHUNK_SIZE` bytes plus a
12-byte nonce) is exactly `MAX_MESSAGE_SIZE` bytes long. -/
theorem file_message_size (vk : List Nat → Bool) (m : Macced FileMessage)
    (h : wfMessage vk (.File m) = true) :
    FILE_CHUNK_SIZE = MAX_MESSAGE_SIZE - 81 ∧ MAX_MESSAGE_SIZE = 1232 ∧
      (encode (.File m)).length = MAX_MESSAGE_SIZE := by
  refine ⟨rfl, rfl, ?_⟩
  simp only [wfMessage, wfFileMessage, wfMacB, wfSizedEnc, bytesOk,
    Bool.and_eq_true, beq_iff_eq, decide_eq_true_eq] at h
  simp only [encode, wMessage, wFileMessage, wSizedEnc, wMacB,
    List.length_cons, List.length_append, List.length_reverse, wLE_length]
  simp only [FILE_CHUNK_SIZE, MAX_MESSAGE_SIZE, MAX_PACKET_SIZE] at h ⊢
  omega

set_option maxRecDepth 100000 in
/-- Witness for the file-message sizing at the concrete chunk `fmC`. -/
theorem file_message_size_witness :
    wfMessage vk0 (.File fmC) = true ∧
      (FILE_CHUNK_SIZE = MAX_MESSAGE_SIZE - 81 ∧ MAX_MESSAGE_SIZE = 1232 ∧
        (encode (.File fmC)).length = MAX_MESSAGE_SIZE) :=
  ⟨by decide, file_message_size vk0 fmC (by decide)⟩

end Wire
